import Mathlib

/-!
Verification of the fcm2up FCM client protocol engine against its specification.

The definitions below are shallow embeddings of the Rust sources:
  * src/fcm-listener/src/push.rs  — the MCS framing decoder (MessageStream),
  * src/fcm-listener/src/gcm.rs   — credential bootstrap and MCS login,
  * src/fcm-listener/src/lib.rs   — Registration::register,
  * src/bridge/src/fcm.rs         — the listener supervisor (run_listener).
Machine integers are modelled as Nat/Int; bytes are Nat values below 256.
Recursive loops are modelled structurally with an explicit fuel argument plus a
wrapper that supplies a provably sufficient amount, so that every definition
evaluates by kernel reduction on concrete inputs.
-/

/-! ## Error type (spec section 7)

Modelled from the spec: the crate error enum lives in src/fcm-listener/src/error.rs,
which is not present under src; section 7 of spec.md gives the taxonomy and
gcm.rs/push.rs show the constructors in use.  Only the constructors the claims
need are carried. -/

inductive FcmError where
  | socketErr
  | protobufDecode (what : String)
  | dependencyFailure (api : String) (reason : String)
  | dependencyRejection (api : String) (reason : String)
  deriving DecidableEq

/-! ## GCM register response classification (gcm.rs 427-452) -/

/-- Token received from GCM registration (gcm.rs `GcmToken`). -/
structure GcmToken where
  token : String
  deriving DecidableEq

/-- Split of a character list at every occurrence of the separator, keeping empty
pieces, mirroring Rust `str::split('=')`: "a=b" gives ["a","b"], "" gives [""],
"a==b" gives ["a","","b"]. -/
def splitOnEq : List Char → List (List Char)
  | [] => [[]]
  | c :: rest =>
    match splitOnEq rest with
    | [] => [[c]]
    | h :: t => if c = '=' then [] :: h :: t else (c :: h) :: t

/-- API name constant used by GcmSession::register for its errors. -/
def gcmRegisterApi : String := "GCM registration"

/-- The ERR_EOF constant of GcmSession::register: a malformed-response failure. -/
def registerErrEof : FcmError := .dependencyFailure gcmRegisterApi "malformed response"

/-- Embedding of the response-body classification at the end of GcmSession::register
(gcm.rs 427-452).  The body is split on the character separator; the first piece
selects the branch: "Error" returns a DependencyRejection carrying the next piece
(or "no reason given"), "token" and any other first piece fall through to read the
next piece as the token (the source only logs a warning for an unexpected key),
and a missing next piece is the ERR_EOF malformed-response failure. -/
def gcmRegisterClassify (body : String) : Except FcmError GcmToken :=
  let tokens := (splitOnEq body.data).map String.mk
  match tokens with
  | [] => .error registerErrEof
  | first :: rest =>
    if first = "Error" then
      .error (.dependencyRejection gcmRegisterApi (rest.headD "no reason given"))
    else
      match rest with
      | v :: _ => .ok ⟨v⟩
      | [] => .error registerErrEof

/-! ## Decimal strings for the GcmSession JSON encoding (gcm.rs 28-36) -/

/-- Character for a decimal digit value. -/
def digitChar (n : Nat) : Char := Char.ofNat (48 + n)

/-- Decimal rendering of a natural number, most significant digit first; the fuel
argument only bounds the recursion depth and `natToDec` supplies a sufficient
amount. -/
def natToDecF : Nat → Nat → List Char
  | 0, _ => []
  | fuel + 1, n =>
    if n < 10 then [digitChar n] else natToDecF fuel (n / 10) ++ [digitChar (n % 10)]

/-- Decimal rendering of a natural number (model of Rust `u64: Display`). -/
def natToDec (n : Nat) : List Char := natToDecF (n + 1) n

/-- Decimal rendering of an integer (model of Rust `i64: Display`). -/
def intToDec (a : Int) : List Char :=
  if a < 0 then '-' :: natToDec a.natAbs else natToDec a.natAbs

/-- Digit-accumulating loop of Rust integer `FromStr`: consumes decimal digits,
failing on any non-digit character. -/
def parseDecAux (acc : Nat) : List Char → Option Nat
  | [] => some acc
  | c :: rest => if c.isDigit then parseDecAux (acc * 10 + (c.toNat - 48)) rest else none

/-- Digits-to-u64 conversion with the u64 overflow check of Rust `u64::from_str`. -/
def decDigitsU64 (cs : List Char) : Option Nat :=
  match cs with
  | [] => none
  | _ => (parseDecAux 0 cs).bind fun v => if v < 2 ^ 64 then some v else none

/-- Model of Rust `u64::from_str` (serde_with::DisplayFromStr deserialization):
an optional leading plus sign then decimal digits, range checked. -/
def parseU64 : List Char → Option Nat
  | [] => none
  | c :: rest => if c = '+' then decDigitsU64 rest else decDigitsU64 (c :: rest)

/-- Digits-to-i64 conversion for a given sign with the i64 range check of Rust
`i64::from_str`. -/
def decDigitsI64 (neg : Bool) (cs : List Char) : Option Int :=
  match cs with
  | [] => none
  | _ =>
    (parseDecAux 0 cs).bind fun v =>
      if neg then (if v ≤ 2 ^ 63 then some (-(v : Int)) else none)
      else (if v < 2 ^ 63 then some (v : Int) else none)

/-- Model of Rust `i64::from_str`: optional sign then decimal digits, range checked. -/
def parseI64 : List Char → Option Int
  | [] => none
  | c :: rest =>
    if c = '-' then decDigitsI64 true rest
    else if c = '+' then decDigitsI64 false rest
    else decDigitsI64 false (c :: rest)

/-- Embedding of GcmSession (gcm.rs 28-36): android_id is an i64, security_token a
u64; both are serialized as decimal strings via serde_with::DisplayFromStr. -/
structure GcmSession where
  android_id : Int
  security_token : Nat
  deriving DecidableEq

/-- Serialization of the two GcmSession fields: the decimal strings that appear in
the JSON record (digits and minus sign need no JSON escaping, so the JSON string
layer carries them verbatim). -/
def gcmSessionSer (s : GcmSession) : String × String :=
  (String.mk (intToDec s.android_id), String.mk (natToDec s.security_token))

/-- Deserialization of the two GcmSession fields from their decimal strings. -/
def gcmSessionDe (p : String × String) : Option GcmSession :=
  match parseI64 p.1.data, parseU64 p.2.data with
  | some a, some t => some ⟨a, t⟩
  | _, _ => none

/-! ## FID generation (gcm.rs 253-271) -/

/-- URL-safe base64 alphabet (RFC 4648 section 5). -/
def base64UrlChar (n : Nat) : Char :=
  if n < 26 then Char.ofNat (65 + n)
  else if n < 52 then Char.ofNat (97 + (n - 26))
  else if n < 62 then Char.ofNat (48 + (n - 52))
  else if n = 62 then '-' else '_'

/-- URL-safe base64 without padding of a byte sequence (the URL_SAFE_NO_PAD engine
used by the source). -/
def base64UrlNoPad : List Nat → List Char
  | [] => []
  | [b1] => [base64UrlChar (b1 / 4), base64UrlChar (b1 % 4 * 16)]
  | [b1, b2] =>
    [base64UrlChar (b1 / 4), base64UrlChar (b1 % 4 * 16 + b2 / 16),
     base64UrlChar (b2 % 16 * 4)]
  | b1 :: b2 :: b3 :: rest =>
    base64UrlChar (b1 / 4) :: base64UrlChar (b1 % 4 * 16 + b2 / 16) ::
    base64UrlChar (b2 % 16 * 4 + b3 / 64) :: base64UrlChar (b3 % 64) ::
    base64UrlNoPad rest

/-- First character of the FID, chosen from the low nibble of the first random byte
(gcm.rs 262-268). -/
def fidFirstChar (b0 : Nat) : Char :=
  match (b0 &&& 15) % 4 with
  | 0 => 'c'
  | 1 => 'd'
  | 2 => 'e'
  | _ => 'f'

/-- FID generation (gcm.rs 256-271): base64url-no-pad encode the 17 random bytes,
truncate to 22 characters, then replace the first character.  `replace_range(0..1)`
on the nonempty encoding is replacement of the head character. -/
def genFid (fidBytes : List Nat) : List Char :=
  fidFirstChar (fidBytes.headD 0) :: ((base64UrlNoPad fidBytes).take 22).tail

/-- Characters admissible in a URL-safe base64 string. -/
def isB64UrlChar (c : Char) : Bool :=
  ('A' ≤ c && c ≤ 'Z') || ('a' ≤ c && c ≤ 'z') || ('0' ≤ c && c ≤ '9') ||
  c = '-' || c = '_'

/-! ## Data message handling in the listener (bridge/src/fcm.rs 213-257) -/

/-- Embedding of the decoded DataMessage (push.rs 48-59). -/
structure DataMessage where
  raw_data : Option (List Nat)
  persistent_id : Option String
  app_data : List (String × String)
  from_ : Option String
  category : Option String
  deriving DecidableEq

/-- Insertion into the app_data map: replace the value of an existing key or append
a new pair. -/
def insertKV (m : List (String × String)) (k v : String) : List (String × String) :=
  if m.any (fun p => p.1 = k) then m.map (fun p => if p.1 = k then (k, v) else p)
  else m ++ [(k, v)]

/-- The source collects app_data into a HashMap before serializing (fcm.rs 240-244);
duplicate keys keep the last value.  HashMap iteration order is unspecified, so the
model fixes first-occurrence order; no theorem below depends on the order, only on
emptiness of the serialized object. -/
def appDataCollect (l : List (String × String)) : List (String × String) :=
  l.foldl (fun m p => insertKV m p.1 p.2) []

/-- UTF-8 encoding of a unicode code point. -/
def utf8EncodeCP (n : Nat) : List Nat :=
  if n < 128 then [n]
  else if n < 2048 then [192 + n / 64, 128 + n % 64]
  else if n < 65536 then [224 + n / 4096, 128 + n / 64 % 64, 128 + n % 64]
  else [240 + n / 262144, 128 + n / 4096 % 64, 128 + n / 64 % 64, 128 + n % 64]

/-- UTF-8 bytes of a character list. -/
def utf8Bytes (cs : List Char) : List Nat := cs.flatMap (fun c => utf8EncodeCP c.toNat)

/-- Lowercase hexadecimal digit character. -/
def hexDigitChar (n : Nat) : Char :=
  if n < 10 then Char.ofNat (48 + n) else Char.ofNat (97 + (n - 10))

/-- JSON escaping of one character, as serde_json emits it: quote and backslash get
a backslash escape, the five short control escapes are used where they exist, the
remaining control characters become a \u00XX escape, and everything else is
verbatim. -/
def jsonEscapeChar (c : Char) : List Char :=
  if c = '"' then ['\\', '"']
  else if c = '\\' then ['\\', '\\']
  else if c = Char.ofNat 8 then ['\\', 'b']
  else if c = Char.ofNat 9 then ['\\', 't']
  else if c = Char.ofNat 10 then ['\\', 'n']
  else if c = Char.ofNat 12 then ['\\', 'f']
  else if c = Char.ofNat 13 then ['\\', 'r']
  else if c.toNat < 32 then
    ['\\', 'u', '0', '0', hexDigitChar (c.toNat / 16), hexDigitChar (c.toNat % 16)]
  else [c]

/-- Bytes of a JSON string literal for s: quote, escaped contents, quote. -/
def jsonStringBytes (s : String) : List Nat :=
  utf8Bytes ('"' :: (s.data.flatMap jsonEscapeChar ++ ['"']))

/-- Bytes of serde_json::to_vec applied to the app_data map: a JSON object of
strings.  Byte 123 is the opening brace, 125 the closing brace, 58 the colon and
44 the comma. -/
def appDataJsonBytes (kvs : List (String × String)) : List Nat :=
  123 ::
    (List.intercalate [44]
      (kvs.map (fun p => jsonStringBytes p.1 ++ [58] ++ jsonStringBytes p.2)) ++ [125])

/-- Body computed by run_listener for a data message (fcm.rs 236-246): raw_data
verbatim when present, otherwise the JSON object serialization of app_data. -/
def messageBody (d : DataMessage) : List Nat :=
  match d.raw_data with
  | some raw => raw
  | none => appDataJsonBytes (appDataCollect d.app_data)

/-- Forward decision of run_listener (fcm.rs 248-256): the POST to the UP endpoint
is attempted iff the computed body is nonempty; an empty body is dropped with a
warning. -/
def forwardsBody (d : DataMessage) : Bool := !(messageBody d).isEmpty

/-! ## Persistent-ID window (bridge/src/fcm.rs 223-232) -/

/-- Window update for one decoded data frame: a present persistent_id that is not
already in the window is appended, and the first (oldest) entry is removed when the
length exceeds 100.  Frames without a persistent_id leave the window unchanged. -/
def windowStep (w : List String) (pid? : Option String) : List String :=
  match pid? with
  | none => w
  | some pid =>
    if w.contains pid then w
    else
      let w' := w ++ [pid]
      if w'.length > 100 then w'.tail else w'

/-- Window contents after a sequence of data-frame events, starting empty. -/
def windowRun (evs : List (Option String)) : List String := evs.foldl windowStep []

/-- One step of first-occurrence deduplication: append an ID unless present. -/
def firstOccurStep (acc : List String) (x : String) : List String :=
  if acc.contains x then acc else acc ++ [x]

/-- First-occurrence deduplication of a list: the IDs in order of first
observation (spec-side reference for the ordering clause of C3). -/
def firstOccur (l : List String) : List String := l.foldl firstOccurStep []

/-! ## Credential bootstrap trace (lib.rs 74-98) -/

/-- Names of the three credential-bootstrap HTTP exchanges of spec section 4.2. -/
inductive BootstrapApi where
  | checkinCall
  | installationsCall
  | register3Call
  deriving DecidableEq

/-- Embedding of FcmCredentials (lib.rs 47-59). -/
structure FcmCredentials where
  sender_id : String
  api_key : String
  app_id : String
  project_id : String
  package_name : String
  deriving DecidableEq

/-- Embedding of Registration (lib.rs 62-70). -/
structure Registration where
  gcm_session : GcmSession
  gcm_token : GcmToken
  credentials : FcmCredentials
  deriving DecidableEq

/-- Embedding of Registration::register (lib.rs 74-98) as a trace over its HTTP
exchanges; the network is abstracted by the two result oracles.  The source
performs exactly two exchanges — GcmSession::checkin and then GcmSession::register —
and contains no call to GcmSession::register_firebase_installation; an error from
either exchange aborts with that error.  (The source's register call also passes
only three arguments to the nine-parameter GcmSession::register of gcm.rs 352-363,
so the crate does not even typecheck as given; the trace models the written control
flow.) -/
def registrationRegister (creds : FcmCredentials)
    (checkinRes : Except FcmError GcmSession)
    (registerRes : GcmSession → Except FcmError GcmToken) :
    List BootstrapApi × Except FcmError Registration :=
  match checkinRes with
  | .error e => ([.checkinCall], .error e)
  | .ok sess =>
    match registerRes sess with
    | .error e => ([.checkinCall, .register3Call], .error e)
    | .ok tok => ([.checkinCall, .register3Call], .ok ⟨sess, tok, creds⟩)

/-! ## MCS login request (gcm.rs 456-507) -/

/-- Embedding of the mcs Setting pair. -/
structure McsSetting where
  name : String
  value : String
  deriving DecidableEq

/-- Embedding of the mcs LoginRequest fields set by the source. -/
structure LoginRequest where
  adaptive_heartbeat : Option Bool
  auth_service : Option Nat
  auth_token : String
  id : String
  domain : String
  device_id : Option String
  network_type : Option Nat
  resource : String
  user : String
  use_rmq2 : Option Bool
  setting : List McsSetting
  received_persistent_id : List String
  deriving DecidableEq

/-- Lowercase hexadecimal rendering of a natural number, most significant digit
first, with fuel as in natToDecF. -/
def natToHexF : Nat → Nat → List Char
  | 0, _ => []
  | fuel + 1, n =>
    if n < 16 then [hexDigitChar n] else natToHexF fuel (n / 16) ++ [hexDigitChar (n % 16)]

/-- Lowercase hexadecimal rendering of a natural number. -/
def natToHex (n : Nat) : List Char := natToHexF (n + 1) n

/-- Rust formatting `{:x}` of an i64: the two's-complement bit pattern rendered as
an unsigned lowercase hexadecimal number. -/
def i64LowerHex (a : Int) : List Char := natToHex (a % (2 ^ 64)).toNat

/-- Embedding of GcmSession::new_mcs_login_request (gcm.rs 484-507). -/
def newMcsLoginRequest (s : GcmSession) (ids : List String) : LoginRequest :=
  { adaptive_heartbeat := some false
    auth_service := some 2
    auth_token := String.mk (natToDec s.security_token)
    id := "chrome-63.0.3234.0"
    domain := "mcs.android.com"
    device_id := some ("android-" ++ String.mk (i64LowerHex s.android_id))
    network_type := some 1
    resource := String.mk (intToDec s.android_id)
    user := String.mk (intToDec s.android_id)
    use_rmq2 := some true
    setting := [⟨"new_vc", "1"⟩]
    received_persistent_id := ids }

/-- MCS_VERSION constant of gcm.rs 481. -/
def MCS_VERSION : Nat := 41

/-- LOGIN_REQUEST_TAG constant of gcm.rs 482. -/
def LOGIN_REQUEST_TAG : Nat := 2

/-! ## Wire codec (push.rs) -/

/-- Varint decoding loop MessageStream::try_read_varint (push.rs 124-149).  The
byte iterator starts just after the tag byte; the result pairs the decoded value
with the offset 2 + bytes_read (one tag byte plus the varint bytes).  A byte equal
to itself with the continuation bit stripped ends the varint; exhaustion of the
input returns the partial value, to be recomputed after more bytes arrive.
Arithmetic is exact here; varintArithSafe tracks where the Rust usize arithmetic
stays in range. -/
def tryReadVarint : List Nat → Nat → Nat → Nat × Nat
  | [], result, bytesRead => (result, 2 + bytesRead)
  | b :: rest, result, bytesRead =>
    let valuePart := b &&& 127
    let result := result + (valuePart <<< (bytesRead * 7))
    if valuePart = b then (result, 2 + bytesRead)
    else tryReadVarint rest result (bytesRead + 1)

/-- Safety envelope of the Rust usize arithmetic in try_read_varint: at every
consumed byte the shift amount bytes_read * 7 must be below 64, the shifted addend
must fit in 64 bits, and the accumulated sum must fit in 64 bits. -/
def varintArithSafe : List Nat → Nat → Nat → Bool
  | [], _, _ => true
  | b :: rest, result, bytesRead =>
    let valuePart := b &&& 127
    let shifted := valuePart <<< (bytesRead * 7)
    let result := result + shifted
    decide (bytesRead * 7 < 64) && decide (shifted < 2 ^ 64) && decide (result < 2 ^ 64) &&
    (if valuePart = b then true else varintArithSafe rest result (bytesRead + 1))

/-- One interaction with the underlying reader: read_buf appended a (nonempty)
chunk, returned zero bytes (EOF), or failed. -/
inductive ReadEv where
  | chunk (bytes : List Nat)
  | zeroRead
  | failRead
  deriving DecidableEq

/-- Result of the inner read loop. -/
inductive FillRes where
  | filled (buf : List Nat) (evs : List ReadEv)
  | pend (buf : List Nat)
  | eofAt (evs : List ReadEv)
  | errAt (evs : List ReadEv)
  deriving DecidableEq

/-- Inner read loop of poll_next (push.rs 208-234): read from the inner stream
until the receive buffer holds at least bytesRequired bytes; a zero-byte read or a
read error ends the stream (the source clears the buffer and marks the stream
done), and exhaustion of the available events corresponds to Poll::Pending. -/
def msFill (bytesRequired : Nat) (buf : List Nat) : List ReadEv → FillRes
  | [] => .pend buf
  | .failRead :: evs => .errAt evs
  | .zeroRead :: evs => .eofAt evs
  | .chunk c :: evs =>
    let buf' := buf ++ c
    if bytesRequired ≤ buf'.length then .filled buf' evs else msFill bytesRequired buf' evs

/-- Terminal status of a decoder run. -/
inductive DecodeEnd where
  | ended
  | errEnd
  | pendingAt (bytesRequired : Nat) (buf : List Nat)
  | outOfFuel
  deriving DecidableEq

/-- Outcome of running the decoder: the delimited frames in order, the terminal
status, and the read events never consumed from the underlying stream. -/
structure DecodeRun where
  frames : List (Nat × List Nat)
  outcome : DecodeEnd
  rest : List ReadEv
  deriving DecidableEq

/-- Decode loop of MessageStream::poll_next (push.rs 158-236), iterated to the end
of the input.  With a nonempty buffer the head byte is the tag: tag 4 (Close) ends
the stream clearing the buffer; otherwise the varint after the tag gives the body
size, and when the whole frame is buffered it is emitted (bytes_required resets
to 2) — the (tag, body) pair is exactly what the source holds at push.rs 183-184
before wrapping it into Message, see surfaceFrame.  An incomplete frame sets
bytes_required to the estimate offset + size and reads; with an empty buffer,
bytes_required 0 marks the stream already ended.  Fuel only bounds iterations;
msRun supplies a sufficient amount. -/
def msRunF : Nat → Nat → List Nat → List ReadEv → DecodeRun
  | 0, _, _, evs => ⟨[], .outOfFuel, evs⟩
  | fuel + 1, bytesRequired, buf, evs =>
    match buf with
    | tag :: rest =>
      if tag = 4 then ⟨[], .ended, evs⟩
      else
        let sv := tryReadVarint rest 0 0
        let required := sv.2 + sv.1
        if required ≤ buf.length then
          let body := (buf.drop sv.2).take sv.1
          let r := msRunF fuel 2 (buf.drop required) evs
          ⟨(tag, body) :: r.frames, r.outcome, r.rest⟩
        else
          match msFill required buf evs with
          | .filled buf' evs' => msRunF fuel required buf' evs'
          | .pend buf' => ⟨[], .pendingAt required buf', []⟩
          | .eofAt evs' => ⟨[], .ended, evs'⟩
          | .errAt evs' => ⟨[], .errEnd, evs'⟩
    | [] =>
      if bytesRequired = 0 then ⟨[], .ended, evs⟩
      else
        match msFill bytesRequired [] evs with
        | .filled buf' evs' => msRunF fuel bytesRequired buf' evs'
        | .pend buf' => ⟨[], .pendingAt bytesRequired buf', []⟩
        | .eofAt evs' => ⟨[], .ended, evs'⟩
        | .errAt evs' => ⟨[], .errEnd, evs'⟩

/-- Total byte count carried by the read events (chunk payload bytes; the other
events count one each). -/
def evsBytes : List ReadEv → Nat
  | [] => 0
  | .chunk c :: evs => c.length + evsBytes evs
  | _ :: evs => 1 + evsBytes evs

/-- Bytes delivered by the chunk events of a read-event list, in order (the flat
view of a fragmented input). -/
def evsData : List ReadEv → List Nat
  | [] => []
  | .chunk c :: evs => c ++ evsData evs
  | _ :: evs => evsData evs

/-- Fuel bound for msRunF: every loop iteration either consumes at least one
buffered byte or at least one read event. -/
def msMeasure (buf : List Nat) (evs : List ReadEv) : Nat :=
  evs.length + buf.length + evsBytes evs

/-- The decoder run with sufficient fuel; initial callers use bytesRequired = 2 and
an empty buffer, the state MessageStream::new establishes (push.rs 115-121). -/
def msRun (bytesRequired : Nat) (buf : List Nat) (evs : List ReadEv) : DecodeRun :=
  msRunF (msMeasure buf evs + 1) bytesRequired buf evs

/-- Terminal status of the flat reference decoder. -/
inductive FlatEnd where
  | closed
  | needMore (buf : List Nat)
  | outOfFuel
  deriving DecidableEq

/-- Reference decoder over a fully received byte sequence (spec section 4.1):
repeatedly delimit <tag><varint len><body> frames, stopping at a Close tag or when
the remaining bytes do not hold a whole frame. -/
def decodeFramesF : Nat → List Nat → List (Nat × List Nat) × FlatEnd
  | 0, _ => ([], .outOfFuel)
  | fuel + 1, buf =>
    match buf with
    | [] => ([], .needMore [])
    | tag :: rest =>
      if tag = 4 then ([], .closed)
      else
        let sv := tryReadVarint rest 0 0
        let required := sv.2 + sv.1
        if required ≤ buf.length then
          let body := (buf.drop sv.2).take sv.1
          let r := decodeFramesF fuel (buf.drop required)
          ((tag, body) :: r.1, r.2)
        else ([], .needMore buf)

/-- Flat reference decode with sufficient fuel. -/
def decodeFrames (buf : List Nat) : List (Nat × List Nat) × FlatEnd :=
  decodeFramesF (buf.length + 1) buf

/-- LEB128 varint encoding (spec section 4.1): little-endian base-128 groups, the
high bit marking continuation, with fuel as in natToDecF. -/
def encodeVarintF : Nat → Nat → List Nat
  | 0, _ => []
  | fuel + 1, n => if n < 128 then [n] else (n % 128 + 128) :: encodeVarintF fuel (n / 128)

/-- LEB128 varint encoding of a natural number. -/
def encodeVarint (n : Nat) : List Nat := encodeVarintF (n + 1) n

/-- Frame encoding <tag><varint(len body)><body> from the claim and spec
section 4.1. -/
def encodeFrame (tag : Nat) (body : List Nat) : List Nat :=
  tag :: (encodeVarint body.length ++ body)

/-- Concatenation of frame encodings. -/
def encodeFrames (fs : List (Nat × List Nat)) : List Nat :=
  fs.flatMap (fun f => encodeFrame f.1 f.2)

/-- Bytes written by GcmSession::connect immediately after the TLS handshake
(gcm.rs 467-479): the version byte, the login tag, then prost
encode_length_delimited of the LoginRequest — a varint of the encoded length
followed by the encoding.  The prost message encoder is generated code (its
schema is not under src) and is abstracted as the parameter enc. -/
def connectLoginBytes (enc : LoginRequest → List Nat) (s : GcmSession)
    (ids : List String) : List Nat :=
  MCS_VERSION :: LOGIN_REQUEST_TAG ::
    (encodeVarint (enc (newMcsLoginRequest s ids)).length ++ enc (newMcsLoginRequest s ids))

/-- Protobuf wire-format varint: value plus remaining bytes, or none when the
input ends inside the varint. -/
def pbVarint : List Nat → Option (Nat × List Nat)
  | [] => none
  | b :: rest =>
    if b < 128 then some (b, rest)
    else
      match pbVarint rest with
      | some (v, r) => some ((b &&& 127) + 128 * v, r)
      | none => none

/-- Modelled from the spec: DataMessage::decode (push.rs 62-82) runs the
prost-generated decoder for the DataMessageStanza protobuf schema; neither the
generated code nor the .proto schema is under src.  Spec sections 2, 4.1 and 7 say
the body is a protobuf message and that a malformed body is a ProtobufDecode
error.  The model checks protobuf wire-format well-formedness, which every
protobuf decoder (prost included) enforces: a sequence of fields, each a key
varint with field number at least 1 and wire type 0 (varint), 1 (8 bytes),
2 (length-delimited) or 5 (4 bytes), with the announced bytes present.
Schema-specific failures beyond the wire format are not modelled; the claims only
use bodies whose status is the same under every schema. -/
def pbWellFormedF : Nat → List Nat → Bool
  | 0, _ => false
  | _ + 1, [] => true
  | fuel + 1, b :: bs =>
    match pbVarint (b :: bs) with
    | none => false
    | some (key, rest) =>
      if key / 8 = 0 then false
      else if key &&& 7 = 0 then
        match pbVarint rest with
        | none => false
        | some (_, r) => pbWellFormedF fuel r
      else if key &&& 7 = 1 then
        if 8 ≤ rest.length then pbWellFormedF fuel (rest.drop 8) else false
      else if key &&& 7 = 2 then
        match pbVarint rest with
        | none => false
        | some (len, r) => if len ≤ r.length then pbWellFormedF fuel (r.drop len) else false
      else if key &&& 7 = 5 then
        if 4 ≤ rest.length then pbWellFormedF fuel (rest.drop 4) else false
      else false

/-- Protobuf wire-format well-formedness with sufficient fuel. -/
def pbWellFormed (bytes : List Nat) : Bool := pbWellFormedF (bytes.length + 1) bytes

/-- Items surfaced by poll_next for one delimited frame (push.rs 185-194): tag 8
(DataMessageStanza) is parsed with the generated decoder — a parse failure is
returned as Err(ProtobufDecode) while the framing state is left exactly as after a
success, so the stream continues —, tag 0 becomes Message::HeartbeatPing (the
body bytes are dropped), and every other tag (Close never reaches this point)
becomes Message::Other(tag, body). -/
inductive Surfaced where
  | heartbeatPing
  | dataFrame (body : List Nat)
  | other (tag : Nat) (body : List Nat)
  | protoDecodeErr (body : List Nat)
  deriving DecidableEq

/-- Surfacing map applied to each delimited frame. -/
def surfaceFrame (tag : Nat) (body : List Nat) : Surfaced :=
  if tag = 8 then (if pbWellFormed body then .dataFrame body else .protoDecodeErr body)
  else if tag = 0 then .heartbeatPing
  else .other tag body

/-! ## Reconnect loop snapshots (bridge/src/fcm.rs 175-196) -/

/-- Window snapshots passed to GcmSession::connect by run_listener: the window
starts empty, each session's data-frame events update it, and every (re)connect
passes the window as it stands at that moment.  Each element of the input list is
the persistent-id event sequence of one session (ending in whatever error forces
the reconnect); the result lists the snapshot used for each connection attempt. -/
def listenerSnapshots (w : List String) : List (List (Option String)) → List (List String)
  | [] => []
  | s :: rest => w :: listenerSnapshots (s.foldl windowStep w) rest

/-! ## Theorems: C7 — register response classification -/

theorem splitOnEq_ne_nil (cs : List Char) : splitOnEq cs ≠ [] := by
  induction cs with
  | nil => simp [splitOnEq]
  | cons c rest ih =>
    rw [splitOnEq]
    rcases hsp : splitOnEq rest with _ | ⟨h, t⟩
    · exact absurd hsp ih
    · by_cases hc : c = '=' <;> simp [hc]

theorem splitOnEq_head (cs : List Char) :
    ∃ t, splitOnEq cs = cs.takeWhile (· != '=') :: t := by
  induction cs with
  | nil => exact ⟨[], rfl⟩
  | cons c rest ih =>
    rw [splitOnEq]
    rcases hsp : splitOnEq rest with _ | ⟨h, t⟩
    · exact absurd hsp (splitOnEq_ne_nil rest)
    · by_cases hc : c = '='
      · subst hc
        refine ⟨h :: t, ?_⟩
        simp [List.takeWhile]
      · obtain ⟨t', ht'⟩ := ih
        rw [hsp] at ht'
        have hh : h = List.takeWhile (· != '=') rest :=
          ((List.cons.injEq _ _ _ _).mp ht').1
        subst hh
        have hb : (c != '=') = true := by simp [hc]
        refine ⟨t, ?_⟩
        simp [List.takeWhile, hb, hc]

theorem splitOnEq_no_sep (cs : List Char) (h : '=' ∉ cs) : splitOnEq cs = [cs] := by
  induction cs with
  | nil => rfl
  | cons c rest ih =>
    rw [splitOnEq, ih (fun hm => h (List.mem_cons_of_mem _ hm))]
    have hc : ¬ c = '=' := fun he => h (he ▸ List.mem_cons_self _ _)
    simp [hc]

theorem splitOnEq_append_sep (xs ys : List Char) (h : '=' ∉ xs) :
    splitOnEq (xs ++ '=' :: ys) = xs :: splitOnEq ys := by
  induction xs with
  | nil =>
    rw [List.nil_append, splitOnEq]
    rcases hsp : splitOnEq ys with _ | ⟨hh, t⟩
    · exact absurd hsp (splitOnEq_ne_nil ys)
    · simp
  | cons x xs ih =>
    have hx : ¬ x = '=' := fun he => h (he ▸ List.mem_cons_self _ _)
    rw [List.cons_append, splitOnEq, ih (fun hm => h (List.mem_cons_of_mem _ hm))]
    simp [hx]

/-- C7 counterexample: the register-3 body "Error" contains no key/value separator,
yet GcmSession::register classifies it as a DependencyRejection carrying
"no reason given"; the claim requires a DependencyFailure (malformed response) for
every body with no separator. -/
theorem c7_error_body_rejection :
    ('=' ∉ "Error".data) ∧
    gcmRegisterClassify "Error" =
      .error (.dependencyRejection "GCM registration" "no reason given") :=
  ⟨by decide, rfl⟩

/-- C7 (amended): splitting the register-3 body on the separator, a body
"Error=reason" yields a DependencyRejection carrying the part of the reason before
any further separator; a body "token=v" yields success with the part of v before
any further separator; a body with no separator yields the malformed-response
DependencyFailure, except for the exact body "Error", which yields a
DependencyRejection carrying "no reason given". -/
theorem c7_register_classification :
    (∀ reason : String,
        gcmRegisterClassify ("Error=" ++ reason) =
          .error (.dependencyRejection gcmRegisterApi
            (String.mk (reason.data.takeWhile (· != '='))))) ∧
    (∀ v : String,
        gcmRegisterClassify ("token=" ++ v) =
          .ok ⟨String.mk (v.data.takeWhile (· != '='))⟩) ∧
    (∀ body : String, '=' ∉ body.data → body ≠ "Error" →
        gcmRegisterClassify body = .error registerErrEof) ∧
    gcmRegisterClassify "Error" =
      .error (.dependencyRejection gcmRegisterApi "no reason given") := by
  refine ⟨?_, ?_, ?_, rfl⟩
  · intro reason
    obtain ⟨t, ht⟩ := splitOnEq_head reason.data
    have hdata : ("Error=" ++ reason).data = "Error".data ++ '=' :: reason.data := by
      simp [String.data_append]
    rw [gcmRegisterClassify, hdata,
      splitOnEq_append_sep _ _ (by decide), ht]
    rfl
  · intro v
    obtain ⟨t, ht⟩ := splitOnEq_head v.data
    have hdata : ("token=" ++ v).data = "token".data ++ '=' :: v.data := by
      simp [String.data_append]
    rw [gcmRegisterClassify, hdata,
      splitOnEq_append_sep _ _ (by decide), ht]
    rfl
  · intro body hsep hbody
    rw [gcmRegisterClassify, splitOnEq_no_sep body.data hsep]
    simp only [List.map]
    have : String.mk body.data = body := rfl
    rw [this]
    simp [hbody]

/-- Witness for c7_register_classification at concrete inputs. -/
theorem c7_register_classification_witness :
    gcmRegisterClassify "bogus" = .error registerErrEof :=
  c7_register_classification.2.2.1 "bogus" (by decide) (by decide)

/-! ## Theorems: C9 — GcmSession decimal round-trip -/

theorem digitChar_isDigit (d : Nat) (hd : d < 10) : (digitChar d).isDigit = true := by
  interval_cases d <;> decide

theorem digitChar_toNat (d : Nat) (hd : d < 10) : (digitChar d).toNat = 48 + d := by
  interval_cases d <;> decide

theorem digitChar_ne_minus (d : Nat) (hd : d < 10) : ¬ digitChar d = '-' := by
  interval_cases d <;> decide

theorem digitChar_ne_plus (d : Nat) (hd : d < 10) : ¬ digitChar d = '+' := by
  interval_cases d <;> decide

theorem parseDecAux_append (acc : Nat) (xs ys : List Char) :
    parseDecAux acc (xs ++ ys) = (parseDecAux acc xs).bind (fun a => parseDecAux a ys) := by
  induction xs generalizing acc with
  | nil => rfl
  | cons c rest ih =>
    simp only [List.cons_append, parseDecAux]
    by_cases hc : c.isDigit
    · simp [hc, ih]
    · simp [hc]

theorem parseDecAux_natToDecF (fuel : Nat) :
    ∀ n acc, n < fuel →
      parseDecAux acc (natToDecF fuel n) =
        some (acc * 10 ^ (natToDecF fuel n).length + n) := by
  induction fuel with
  | zero => intro n _ h; omega
  | succ fuel ih =>
    intro n acc h
    rw [natToDecF]
    by_cases hn : n < 10
    · rw [if_pos hn]
      simp [parseDecAux, digitChar_isDigit n hn, digitChar_toNat n hn]
    · have hdiv : n / 10 < fuel := by
        have : n / 10 < n := Nat.div_lt_self (by omega) (by norm_num)
        omega
      rw [if_neg hn, parseDecAux_append, ih (n / 10) acc hdiv]
      have hm : n % 10 < 10 := Nat.mod_lt _ (by norm_num)
      simp only [Option.some_bind]
      simp [parseDecAux, digitChar_isDigit _ hm, digitChar_toNat _ hm, List.length_append]
      calc (acc * 10 ^ (natToDecF fuel (n / 10)).length + n / 10) * 10 + n % 10
          = acc * (10 ^ (natToDecF fuel (n / 10)).length * 10) + (10 * (n / 10) + n % 10) := by
            ring
        _ = acc * 10 ^ ((natToDecF fuel (n / 10)).length + 1) + n := by
            rw [pow_succ, Nat.div_add_mod]

theorem natToDecF_head (fuel : Nat) :
    ∀ n, n < fuel → ∃ d t, natToDecF fuel n = digitChar d :: t ∧ d < 10 := by
  induction fuel with
  | zero => intro n h; omega
  | succ fuel ih =>
    intro n h
    rw [natToDecF]
    by_cases hn : n < 10
    · exact ⟨n, [], by simp [hn], hn⟩
    · have hdiv : n / 10 < fuel := by
        have : n / 10 < n := Nat.div_lt_self (by omega) (by norm_num)
        omega
      obtain ⟨d, t, ht, hd⟩ := ih (n / 10) hdiv
      exact ⟨d, t ++ [digitChar (n % 10)], by simp [hn, ht], hd⟩

theorem decDigitsU64_natToDec (t : Nat) (ht : t < 2 ^ 64) :
    decDigitsU64 (natToDec t) = some t := by
  obtain ⟨d, tl, hcons, hd⟩ := natToDecF_head (t + 1) t (Nat.lt_succ_self t)
  have h1 := parseDecAux_natToDecF (t + 1) t 0 (Nat.lt_succ_self t)
  show decDigitsU64 (natToDecF (t + 1) t) = some t
  rw [hcons]
  show (parseDecAux 0 (digitChar d :: tl)).bind
      (fun v => if v < 2 ^ 64 then some v else none) = some t
  rw [← hcons, h1]
  simp only [Option.some_bind, Nat.zero_mul, Nat.zero_add]
  rw [if_pos ht]

theorem parseU64_natToDec (t : Nat) (ht : t < 2 ^ 64) :
    parseU64 (natToDec t) = some t := by
  obtain ⟨d, tl, hcons, hd⟩ := natToDecF_head (t + 1) t (Nat.lt_succ_self t)
  show parseU64 (natToDecF (t + 1) t) = some t
  rw [hcons]
  show (if digitChar d = '+' then decDigitsU64 tl else decDigitsU64 (digitChar d :: tl)) = some t
  rw [if_neg (digitChar_ne_plus d hd), ← hcons]
  exact decDigitsU64_natToDec t ht

theorem decDigitsI64_natToDec_pos (v : Nat) (hv : v < 2 ^ 63) :
    decDigitsI64 false (natToDec v) = some (v : Int) := by
  obtain ⟨d, tl, hcons, hd⟩ := natToDecF_head (v + 1) v (Nat.lt_succ_self v)
  have h1 := parseDecAux_natToDecF (v + 1) v 0 (Nat.lt_succ_self v)
  show decDigitsI64 false (natToDecF (v + 1) v) = some (v : Int)
  rw [hcons]
  show (parseDecAux 0 (digitChar d :: tl)).bind
      (fun w => if w < 2 ^ 63 then some (w : Int) else none) = some (v : Int)
  rw [← hcons, h1]
  simp only [Option.some_bind, Nat.zero_mul, Nat.zero_add]
  rw [if_pos hv]

theorem decDigitsI64_natToDec_neg (v : Nat) (hv : v ≤ 2 ^ 63) :
    decDigitsI64 true (natToDec v) = some (-(v : Int)) := by
  obtain ⟨d, tl, hcons, hd⟩ := natToDecF_head (v + 1) v (Nat.lt_succ_self v)
  have h1 := parseDecAux_natToDecF (v + 1) v 0 (Nat.lt_succ_self v)
  show decDigitsI64 true (natToDecF (v + 1) v) = some (-(v : Int))
  rw [hcons]
  show (parseDecAux 0 (digitChar d :: tl)).bind
      (fun w => if w ≤ 2 ^ 63 then some (-(w : Int)) else none) = some (-(v : Int))
  rw [← hcons, h1]
  simp only [Option.some_bind, Nat.zero_mul, Nat.zero_add]
  rw [if_pos hv]

theorem parseI64_intToDec (a : Int) (hlo : -(2 ^ 63) ≤ a) (hhi : a < 2 ^ 63) :
    parseI64 (intToDec a) = some a := by
  by_cases hneg : a < 0
  · rw [intToDec, if_pos hneg]
    show (if ('-' : Char) = '-' then decDigitsI64 true (natToDec a.natAbs)
      else if ('-' : Char) = '+' then decDigitsI64 false (natToDec a.natAbs)
      else decDigitsI64 false ('-' :: natToDec a.natAbs)) = some a
    rw [if_pos rfl]
    have hv : a.natAbs ≤ 2 ^ 63 := by omega
    rw [decDigitsI64_natToDec_neg a.natAbs hv]
    congr 1
    omega
  · rw [intToDec, if_neg hneg]
    obtain ⟨d, tl, hcons, hd⟩ :=
      natToDecF_head (a.natAbs + 1) a.natAbs (Nat.lt_succ_self _)
    show parseI64 (natToDecF (a.natAbs + 1) a.natAbs) = some a
    rw [hcons]
    show (if digitChar d = '-' then decDigitsI64 true tl
      else if digitChar d = '+' then decDigitsI64 false tl
      else decDigitsI64 false (digitChar d :: tl)) = some a
    rw [if_neg (digitChar_ne_minus d hd), if_neg (digitChar_ne_plus d hd), ← hcons]
    have hv : a.natAbs < 2 ^ 63 := by omega
    show decDigitsI64 false (natToDec a.natAbs) = some a
    rw [decDigitsI64_natToDec_pos a.natAbs hv]
    congr 1
    omega

/-- C9: serializing a GcmSession to its decimal strings and deserializing — the
DisplayFromStr encoding of gcm.rs 28-36 — is the identity on
(android_id, security_token) for every signed-64-bit android_id and unsigned-64-bit
security_token; the decimal-string encoding loses no precision. -/
theorem c9_session_roundtrip (s : GcmSession)
    (hlo : -(2 ^ 63) ≤ s.android_id) (hhi : s.android_id < 2 ^ 63)
    (ht : s.security_token < 2 ^ 64) :
    gcmSessionDe (gcmSessionSer s) = some s := by
  show gcmSessionDe
      (String.mk (intToDec s.android_id), String.mk (natToDec s.security_token)) = some s
  rw [gcmSessionDe]
  show (match parseI64 (intToDec s.android_id), parseU64 (natToDec s.security_token) with
    | some a, some t => some (⟨a, t⟩ : GcmSession)
    | _, _ => none) = some s
  rw [parseI64_intToDec _ hlo hhi, parseU64_natToDec _ ht]

/-- Witness for c9_session_roundtrip at 63-bit inputs. -/
theorem c9_session_roundtrip_witness :
    gcmSessionDe (gcmSessionSer ⟨2 ^ 62 + 3, 2 ^ 63 + 5⟩) = some ⟨2 ^ 62 + 3, 2 ^ 63 + 5⟩ :=
  c9_session_roundtrip ⟨2 ^ 62 + 3, 2 ^ 63 + 5⟩ (by norm_num) (by norm_num) (by norm_num)

/-! ## Theorems: C8 — FID shape -/

theorem base64UrlChar_valid : ∀ n, n < 64 → isB64UrlChar (base64UrlChar n) = true := by
  decide

theorem base64UrlNoPad_length (bs : List Nat) :
    (base64UrlNoPad bs).length =
      4 * (bs.length / 3) + (if bs.length % 3 = 0 then 0 else bs.length % 3 + 1) := by
  induction bs using base64UrlNoPad.induct with
  | case1 => simp [base64UrlNoPad]
  | case2 b1 => simp [base64UrlNoPad]
  | case3 b1 b2 => simp [base64UrlNoPad]
  | case4 b1 b2 b3 rest ih =>
    simp only [base64UrlNoPad, List.length_cons, ih]
    have h3 : (rest.length + 1 + 1 + 1) / 3 = rest.length / 3 + 1 := by omega
    have h4 : (rest.length + 1 + 1 + 1) % 3 = rest.length % 3 := by omega
    rw [h3, h4]
    omega

theorem base64UrlNoPad_mem_valid (bs : List Nat) (hb : ∀ b ∈ bs, b < 256) :
    ∀ c ∈ base64UrlNoPad bs, isB64UrlChar c = true := by
  induction bs using base64UrlNoPad.induct with
  | case1 => simp [base64UrlNoPad]
  | case2 b1 =>
    have h1 : b1 < 256 := hb b1 (by simp)
    intro c hc
    simp only [base64UrlNoPad, List.mem_cons, List.mem_singleton] at hc
    rcases hc with rfl | rfl | hc
    · exact base64UrlChar_valid _ (by omega)
    · exact base64UrlChar_valid _ (by
        have := Nat.mod_lt b1 (y := 4) (by norm_num)
        omega)
    · simp at hc
  | case3 b1 b2 =>
    have h1 : b1 < 256 := hb b1 (by simp)
    have h2 : b2 < 256 := hb b2 (by simp)
    intro c hc
    simp only [base64UrlNoPad, List.mem_cons, List.mem_singleton] at hc
    have hm1 := Nat.mod_lt b1 (y := 4) (by norm_num)
    have hm2 := Nat.mod_lt b2 (y := 16) (by norm_num)
    rcases hc with rfl | rfl | rfl | hc
    · exact base64UrlChar_valid _ (by omega)
    · exact base64UrlChar_valid _ (by omega)
    · exact base64UrlChar_valid _ (by omega)
    · simp at hc
  | case4 b1 b2 b3 rest ih =>
    have h1 : b1 < 256 := hb b1 (by simp)
    have h2 : b2 < 256 := hb b2 (by simp)
    have h3 : b3 < 256 := hb b3 (by simp)
    have hrest : ∀ b ∈ rest, b < 256 := fun b hm => hb b (by simp [hm])
    intro c hc
    simp only [base64UrlNoPad, List.mem_cons] at hc
    have hm1 := Nat.mod_lt b1 (y := 4) (by norm_num)
    have hm2 := Nat.mod_lt b2 (y := 16) (by norm_num)
    have hm3 := Nat.mod_lt b3 (y := 64) (by norm_num)
    rcases hc with rfl | rfl | rfl | rfl | hc
    · exact base64UrlChar_valid _ (by omega)
    · exact base64UrlChar_valid _ (by omega)
    · exact base64UrlChar_valid _ (by omega)
    · exact base64UrlChar_valid _ (by omega)
    · exact ih hrest c hc

theorem fidFirstChar_mem (b0 : Nat) :
    fidFirstChar b0 ∈ (['c', 'd', 'e', 'f'] : List Char) := by
  have h4 : (b0 &&& 15) % 4 < 4 := Nat.mod_lt _ (by norm_num)
  rw [fidFirstChar]
  rcases hv : (b0 &&& 15) % 4 with _ | _ | _ | k
  · simp
  · simp
  · simp
  · simp

theorem fidFirstChar_of_nibble (b0 : Nat) :
    fidFirstChar b0 = fidFirstChar (b0 &&& 15) := by
  have h15 : (15 : Nat) &&& 15 = 15 := by decide
  have h : (b0 &&& 15) &&& 15 = b0 &&& 15 := by rw [Nat.land_assoc, h15]
  rw [fidFirstChar, fidFirstChar, h]

theorem fidFirstChar_valid (b0 : Nat) : isB64UrlChar (fidFirstChar b0) = true := by
  rw [fidFirstChar]
  rcases hv : (b0 &&& 15) % 4 with _ | _ | _ | k
  · decide
  · decide
  · decide
  · show isB64UrlChar 'f' = true
    decide

/-- C8: for every value of the 17 random bytes, the generated FID is exactly 22
URL-safe-base64 characters — the no-pad encoding of the bytes (23 characters)
truncated to 22, with the head replaced — and its first character is one of
c, d, e, f, chosen deterministically from the low nibble of the first byte. -/
theorem c8_fid_shape (bs : List Nat) (hlen : bs.length = 17) (hb : ∀ b ∈ bs, b < 256) :
    (genFid bs).length = 22 ∧
    (base64UrlNoPad bs).length = 23 ∧
    genFid bs = fidFirstChar (bs.headD 0) :: ((base64UrlNoPad bs).take 22).tail ∧
    (∀ c ∈ genFid bs, isB64UrlChar c = true) ∧
    fidFirstChar (bs.headD 0) ∈ (['c', 'd', 'e', 'f'] : List Char) ∧
    fidFirstChar (bs.headD 0) = fidFirstChar (bs.headD 0 &&& 15) := by
  have henc : (base64UrlNoPad bs).length = 23 := by
    rw [base64UrlNoPad_length, hlen]
    decide
  have htake : ((base64UrlNoPad bs).take 22).length = 22 := by
    rw [List.length_take, henc]
    decide
  refine ⟨?_, henc, rfl, ?_, fidFirstChar_mem _, fidFirstChar_of_nibble _⟩
  · rw [genFid, List.length_cons, List.length_tail, htake]
  · intro c hc
    rw [genFid] at hc
    rcases List.mem_cons.mp hc with rfl | hc
    · exact fidFirstChar_valid _
    · exact base64UrlNoPad_mem_valid bs hb c
        (List.take_subset _ _ (List.mem_of_mem_tail hc))

/-- Witness for c8_fid_shape at the all-zero byte vector. -/
theorem c8_fid_shape_witness :
    (genFid (List.replicate 17 0)).length = 22 :=
  (c8_fid_shape (List.replicate 17 0) (by decide) (by decide)).1

/-! ## Theorems: C2 — data message forwarding -/

theorem appDataJsonBytes_ne_nil (kvs : List (String × String)) :
    appDataJsonBytes kvs ≠ [] := by
  simp [appDataJsonBytes]

/-- C2 counterexample: a DataMessage with raw_data absent and app_data empty is,
per the claim, dropped with a warning and no forwarding POST; run_listener instead
computes the two-byte body of the empty JSON object (bytes 123, 125) and attempts
exactly the forward the claim rules out. -/
theorem c2_empty_appdata_forwarded :
    messageBody ⟨none, some "P1", [], none, none⟩ = [123, 125] ∧
    forwardsBody ⟨none, some "P1", [], none, none⟩ = true :=
  ⟨rfl, rfl⟩

/-- C2 (amended): run_listener computes the forwarded body as raw_data verbatim
when present and otherwise as the JSON object serialization of app_data; the
serialized object is never empty (it is at least the two brace bytes), so the
forward is attempted for every DataMessage except exactly those with raw_data
present and empty, the only messages dropped with the empty-payload warning — in
particular a message with raw_data absent and app_data empty is forwarded with
body bytes 123, 125. -/
theorem c2_forward_body (d : DataMessage) :
    (∀ raw, d.raw_data = some raw → messageBody d = raw) ∧
    (d.raw_data = none →
      messageBody d = appDataJsonBytes (appDataCollect d.app_data) ∧
      messageBody d ≠ [] ∧ forwardsBody d = true) ∧
    (forwardsBody d = false ↔ d.raw_data = some []) := by
  refine ⟨?_, ?_, ?_⟩
  · intro raw h
    simp [messageBody, h]
  · intro h
    refine ⟨by simp [messageBody, h], ?_, ?_⟩
    · simp [messageBody, h, appDataJsonBytes_ne_nil]
    · simp only [forwardsBody, messageBody, h]
      simp [List.isEmpty_iff, appDataJsonBytes_ne_nil]
  · cases hr : d.raw_data with
    | none =>
      simp only [forwardsBody, messageBody, hr]
      simp [List.isEmpty_iff, appDataJsonBytes_ne_nil]
    | some raw =>
      simp only [forwardsBody, messageBody, hr]
      simp [List.isEmpty_iff]

/-- Witness for c2_forward_body: a message with raw_data present is forwarded
verbatim. -/
theorem c2_forward_body_witness :
    messageBody ⟨some [222, 173, 190, 239], some "P1", [], none, none⟩ =
      [222, 173, 190, 239] :=
  (c2_forward_body _).1 _ rfl

/-! ## Theorems: C3 — persistent-ID window -/

theorem windowStep_mem_eq (w : List String) (pid : String) (h : pid ∈ w) :
    windowStep w (some pid) = w := by
  have hc : w.contains pid = true := List.elem_iff.mpr h
  simp only [windowStep]
  rw [if_pos hc]

theorem windowStep_evict (w : List String) (pid : String) (hnd : pid ∉ w)
    (hlen : w.length = 100) :
    windowStep w (some pid) = w.tail ++ [pid] := by
  have hc : w.contains pid = false := by
    rcases hb : w.contains pid with _ | _
    · rfl
    · exact absurd (List.elem_iff.mp hb) hnd
  have hl : (w ++ [pid]).length = 101 := by simp [hlen]
  simp only [windowStep, hc, Bool.false_eq_true, if_false]
  rw [if_pos (by rw [hl]; norm_num)]
  cases w with
  | nil => simp at hlen
  | cons a as => simp

theorem windowStep_inv (w : List String) (e : Option String)
    (hnd : w.Nodup) (hlen : w.length ≤ 100) :
    (windowStep w e).Nodup ∧ (windowStep w e).length ≤ 100 := by
  match e with
  | none => exact ⟨hnd, hlen⟩
  | some pid =>
    by_cases hm : pid ∈ w
    · rw [windowStep_mem_eq w pid hm]
      exact ⟨hnd, hlen⟩
    · have hnd' : (w ++ [pid]).Nodup := by
        rw [List.nodup_append]
        exact ⟨hnd, List.nodup_singleton _, by simpa using hm⟩
      have hlApp : (w ++ [pid]).length = w.length + 1 := by simp
      simp only [windowStep]
      rw [if_neg (fun hcc => hm (List.elem_iff.mp hcc))]
      by_cases hl : (w ++ [pid]).length > 100
      · rw [if_pos hl]
        constructor
        · exact List.Nodup.sublist (List.tail_sublist _) hnd'
        · simp only [List.length_tail]
          omega
      · rw [if_neg hl]
        exact ⟨hnd', by omega⟩

theorem windowFold_inv (evs : List (Option String)) :
    ∀ w, w.Nodup → w.length ≤ 100 →
      (evs.foldl windowStep w).Nodup ∧ (evs.foldl windowStep w).length ≤ 100 := by
  induction evs with
  | nil => intro w h1 h2; exact ⟨h1, h2⟩
  | cons e rest ih =>
    intro w h1 h2
    rw [List.foldl_cons]
    obtain ⟨h1', h2'⟩ := windowStep_inv w e h1 h2
    exact ih _ h1' h2'

theorem firstOccurStep_length (acc : List String) (x : String) :
    acc.length ≤ (firstOccurStep acc x).length := by
  rw [firstOccurStep]
  by_cases hc : acc.contains x = true
  · rw [if_pos hc]
  · rw [if_neg hc]
    simp

theorem firstOccur_foldl_mono (l : List String) :
    ∀ acc : List String, acc.length ≤ (l.foldl firstOccurStep acc).length := by
  induction l with
  | nil => intro acc; exact le_refl _
  | cons x rest ih =>
    intro acc
    rw [List.foldl_cons]
    exact le_trans (firstOccurStep_length acc x) (ih _)

theorem windowFold_eq_firstOccur (evs : List (Option String)) :
    ∀ w : List String,
      ((evs.filterMap id).foldl firstOccurStep w).length ≤ 100 →
      evs.foldl windowStep w = (evs.filterMap id).foldl firstOccurStep w := by
  induction evs with
  | nil => intro w _; rfl
  | cons e rest ih =>
    intro w h
    match e with
    | none =>
      have hf : (none :: rest : List (Option String)).filterMap id = rest.filterMap id := by
        simp
      rw [hf] at h ⊢
      rw [List.foldl_cons]
      exact ih w h
    | some pid =>
      have hf : (some pid :: rest : List (Option String)).filterMap id =
          pid :: rest.filterMap id := by simp
      rw [hf] at h ⊢
      rw [List.foldl_cons] at h ⊢
      rw [List.foldl_cons]
      by_cases hm : pid ∈ w
      · have h2 : firstOccurStep w pid = w := by
          rw [firstOccurStep, if_pos (List.elem_iff.mpr hm)]
        rw [h2] at h ⊢
        rw [windowStep_mem_eq w pid hm]
        exact ih w h
      · have h2 : firstOccurStep w pid = w ++ [pid] := by
          rw [firstOccurStep, if_neg (fun hcc => hm (List.elem_iff.mp hcc))]
        rw [h2] at h ⊢
        have hlen : (w ++ [pid]).length ≤ 100 :=
          le_trans (firstOccur_foldl_mono _ _) h
        have h1 : windowStep w (some pid) = w ++ [pid] := by
          simp only [windowStep]
          rw [if_neg (fun hcc => hm (List.elem_iff.mp hcc))]
          have hgt : ¬ (w ++ [pid]).length > 100 := by omega
          rw [if_neg hgt]
        rw [h1]
        exact ih _ h

/-- C3 (amended): after any sequence of data-frame events the persistent-ID window
contains at most 100 IDs and no duplicates; an ID already present is not
re-appended; when a new distinct ID arrives at a window holding 100 IDs, exactly
one ID — the oldest (first) — is evicted; and as long as at most 100 distinct IDs
have been observed the window lists the IDs in order of first observation.  After
an evicted ID is observed again the window order is order of insertion, which can
differ from order of first observation (see the counterexample). -/
theorem c3_window_invariants :
    (∀ evs : List (Option String),
      (windowRun evs).Nodup ∧ (windowRun evs).length ≤ 100) ∧
    (∀ (w : List String) (pid : String), pid ∈ w → windowStep w (some pid) = w) ∧
    (∀ (w : List String) (pid : String), pid ∉ w → w.length = 100 →
      windowStep w (some pid) = w.tail ++ [pid]) ∧
    (∀ evs : List (Option String),
      (firstOccur (evs.filterMap id)).length ≤ 100 →
      windowRun evs = firstOccur (evs.filterMap id)) := by
  refine ⟨?_, ?_, ?_, ?_⟩
  · intro evs
    exact windowFold_inv evs [] List.nodup_nil (by simp)
  · intro w pid h
    exact windowStep_mem_eq w pid h
  · intro w pid h hlen
    exact windowStep_evict w pid h hlen
  · intro evs h
    exact windowFold_eq_firstOccur evs [] h

/-- Witness for c3_window_invariants at concrete inputs. -/
theorem c3_window_invariants_witness :
    windowStep ["a"] (some "a") = ["a"] ∧
    windowRun [some "b", some "b"] = firstOccur ["b", "b"] :=
  ⟨c3_window_invariants.2.1 ["a"] "a" (by decide),
   c3_window_invariants.2.2.2 [some "b", some "b"] (by decide)⟩

set_option maxRecDepth 10000

/-- C3 counterexample: after the 102 events p0, p1, ..., p100, p0 — where p0 is
evicted when the 101st distinct ID p100 arrives and is then re-appended at the
back — the window contains both p0 and p2 but p0 comes after p2, although p0 was
first observed before p2; the window is therefore not in order of first
observation as the claim states. -/
theorem c3_order_violation :
    ("p0" ∈ windowRun (((List.range 101).map (fun i => some ("p" ++ toString i))) ++
        [some "p0"])) ∧
    ("p2" ∈ windowRun (((List.range 101).map (fun i => some ("p" ++ toString i))) ++
        [some "p0"])) ∧
    (windowRun (((List.range 101).map (fun i => some ("p" ++ toString i))) ++
        [some "p0"])).findIdx (· == "p2") <
      (windowRun (((List.range 101).map (fun i => some ("p" ++ toString i))) ++
        [some "p0"])).findIdx (· == "p0") ∧
    ((((List.range 101).map (fun i => some ("p" ++ toString i))) ++
        [some "p0"]).findIdx (· == some "p0") <
      (((List.range 101).map (fun i => some ("p" ++ toString i))) ++
        [some "p0"]).findIdx (· == some "p2")) := by
  decide

/-! ## Theorems: C1 — bootstrap ordering in Registration::register -/

/-- C1 evaluation at the failing input: with a successful check-in (android_id 42,
security_token 7) and a successful register-3 exchange, Registration::register
performs the trace [checkin, register3]; no trace of the function ever contains a
Firebase Installations call, although the claim requires a successful
Installations response before any GCM register call.  A failed check-in aborts
with its error, as the claim's abort clause says. -/
theorem c1_register_trace :
    (registrationRegister ⟨"10", "k", "1:10:android:ab", "p", "com.example.x"⟩
        (.ok ⟨42, 7⟩) (fun _ => .ok ⟨"TOKEN123"⟩)).1 = [.checkinCall, .register3Call] ∧
    (registrationRegister ⟨"10", "k", "1:10:android:ab", "p", "com.example.x"⟩
        (.ok ⟨42, 7⟩) (fun _ => .ok ⟨"TOKEN123"⟩)).2 =
      .ok ⟨⟨42, 7⟩, ⟨"TOKEN123"⟩, ⟨"10", "k", "1:10:android:ab", "p", "com.example.x"⟩⟩ ∧
    (∀ (creds : FcmCredentials) (cres : Except FcmError GcmSession)
        (rres : GcmSession → Except FcmError GcmToken),
      BootstrapApi.installationsCall ∉ (registrationRegister creds cres rres).1) ∧
    (∀ (creds : FcmCredentials) (e : FcmError)
        (rres : GcmSession → Except FcmError GcmToken),
      registrationRegister creds (.error e) rres = ([.checkinCall], .error e)) := by
  refine ⟨rfl, rfl, ?_, fun creds e rres => rfl⟩
  intro creds cres rres
  match cres with
  | .error e => simp [registrationRegister]
  | .ok sess =>
    match h : rres sess with
    | .error e => simp [registrationRegister, h]
    | .ok tok => simp [registrationRegister, h]

/-! ## Theorems: C6 — MCS login bytes and window snapshot -/

/-- C6: every connection attempt writes the version byte 41, the login tag 2, the
varint length of the encoded LoginRequest and then the encoding (gcm.rs 467-479,
with the prost message encoder abstracted as enc); new_mcs_login_request sets
received_persistent_id to exactly the window snapshot handed to connect; and
run_listener hands the current window to every (re)connect, so after a first
session that delivered P1 and P2 and then failed, the second connection's
LoginRequest carries received_persistent_id = [P1, P2]. -/
theorem c6_login_bytes_window :
    (∀ (enc : LoginRequest → List Nat) (s : GcmSession) (ids : List String),
      connectLoginBytes enc s ids =
        41 :: 2 :: (encodeVarint (enc (newMcsLoginRequest s ids)).length ++
          enc (newMcsLoginRequest s ids)) ∧
      (newMcsLoginRequest s ids).received_persistent_id = ids) ∧
    listenerSnapshots [] [[some "P1", some "P2"], []] = [[], ["P1", "P2"]] ∧
    (∀ s : GcmSession,
      (newMcsLoginRequest s ["P1", "P2"]).received_persistent_id = ["P1", "P2"]) := by
  refine ⟨fun enc s ids => ⟨rfl, rfl⟩, by decide, fun s => rfl⟩

/-! ## Theorems: C10 — varint arithmetic safety -/

theorem and127_eq_mod (b : Nat) : b &&& 127 = b % 128 := by
  have h := Nat.and_pow_two_sub_one_eq_mod b 7
  norm_num at h
  exact h

theorem and127_le (b : Nat) : b &&& 127 ≤ 127 := by
  rw [and127_eq_mod]
  have := Nat.mod_lt b (y := 128) (by norm_num)
  omega

theorem tryReadVarint_offset_le (bs : List Nat) :
    ∀ r k, (tryReadVarint bs r k).2 ≤ 2 + k + bs.length := by
  induction bs with
  | nil => intro r k; simp [tryReadVarint]
  | cons b rest ih =>
    intro r k
    simp only [tryReadVarint, List.length_cons]
    by_cases hb : (b &&& 127) = b
    · rw [if_pos hb]
      simp
    · rw [if_neg hb]
      have h := ih (r + (b &&& 127) <<< (k * 7)) (k + 1)
      omega

theorem tryReadVarint_offset_ge (bs : List Nat) :
    ∀ r k, 2 + k ≤ (tryReadVarint bs r k).2 := by
  induction bs with
  | nil => intro r k; simp [tryReadVarint]
  | cons b rest ih =>
    intro r k
    simp only [tryReadVarint]
    by_cases hb : (b &&& 127) = b
    · rw [if_pos hb]
    · rw [if_neg hb]
      have h := ih (r + (b &&& 127) <<< (k * 7)) (k + 1)
      omega

theorem varintStep_bounds (k valuePart r : Nat) (hk : k ≤ 8) (hv : valuePart ≤ 127)
    (hr : r < 2 ^ (k * 7)) :
    k * 7 < 64 ∧ valuePart <<< (k * 7) < 2 ^ 64 ∧
      r + valuePart <<< (k * 7) < 2 ^ ((k + 1) * 7) ∧ (2 : Nat) ^ ((k + 1) * 7) ≤ 2 ^ 64 := by
  have hshift : valuePart <<< (k * 7) = valuePart * 2 ^ (k * 7) := Nat.shiftLeft_eq _ _
  have hp56 : (2 : Nat) ^ (k * 7) ≤ 2 ^ 56 := Nat.pow_le_pow_right (by norm_num) (by omega)
  have hmul : valuePart * 2 ^ (k * 7) ≤ 127 * 2 ^ (k * 7) :=
    Nat.mul_le_mul_right _ hv
  have hsum : 2 ^ (k * 7) + 127 * 2 ^ (k * 7) = 2 ^ ((k + 1) * 7) := by
    have he : (k + 1) * 7 = k * 7 + 7 := by ring
    rw [he, pow_add]
    ring
  refine ⟨by omega, ?_, ?_, Nat.pow_le_pow_right (by norm_num) (by omega)⟩
  · rw [hshift]
    calc valuePart * 2 ^ (k * 7) ≤ 127 * 2 ^ 56 := Nat.mul_le_mul hv hp56
      _ < 2 ^ 64 := by norm_num
  · rw [hshift]
    omega

theorem varintArithSafe_of_short (bs : List Nat) :
    ∀ k r, k + (bs.takeWhile (fun b => !(b &&& 127 == b))).length ≤ 8 →
      r < 2 ^ (k * 7) →
      varintArithSafe bs r k = true := by
  induction bs with
  | nil => intro k r _ _; rfl
  | cons b rest ih =>
    intro k r hk hr
    have hv : b &&& 127 ≤ 127 := and127_le b
    simp only [varintArithSafe]
    by_cases hb : (b &&& 127) = b
    · have htw : ((b :: rest).takeWhile (fun b => !(b &&& 127 == b))).length = 0 := by
        simp [List.takeWhile, hb]
      rw [htw] at hk
      obtain ⟨h1, h2, h3, h4⟩ := varintStep_bounds k (b &&& 127) r (by omega) hv hr
      simp only [if_pos hb, Bool.and_true]
      simp only [Bool.and_eq_true, decide_eq_true_eq]
      exact ⟨⟨h1, h2⟩, by omega⟩
    · have hbeq : (b &&& 127 == b) = false := beq_eq_false_iff_ne.mpr hb
      have htw : ((b :: rest).takeWhile (fun b => !(b &&& 127 == b))).length =
          (rest.takeWhile (fun b => !(b &&& 127 == b))).length + 1 := by
        simp [List.takeWhile, hbeq]
      rw [htw] at hk
      obtain ⟨h1, h2, h3, h4⟩ := varintStep_bounds k (b &&& 127) r (by omega) hv hr
      rw [if_neg hb]
      have hrec := ih (k + 1) (r + (b &&& 127) <<< (k * 7)) (by omega) (by omega)
      simp only [Bool.and_eq_true, decide_eq_true_eq]
      exact ⟨⟨⟨h1, h2⟩, by omega⟩, hrec⟩

/-- C10 counterexample: on the adversarial varint of ten continuation bytes
followed by a terminator, the accumulated value reaches 2^70 — the shift amount
bytes_read * 7 reaches 70 at the eleventh byte — so the usize arithmetic of
try_read_varint does not stay within the 64-bit range (an arithmetic-overflow
panic in a build with overflow checks); the claim's unconditional no-overflow
guarantee fails on adversarial wire input with ten or more continuation bytes. -/
theorem c10_varint_overflow :
    varintArithSafe [128, 128, 128, 128, 128, 128, 128, 128, 128, 128, 1] 0 0 = false ∧
    (tryReadVarint [128, 128, 128, 128, 128, 128, 128, 128, 128, 128, 1] 0 0).1 = 2 ^ 70 ∧
    ¬ 10 * 7 < 64 := by
  refine ⟨by decide, by decide, by decide⟩

/-- C10 (amended): try_read_varint terminates on every finite input — it examines
at most the given bytes, its offset result being bounded by 2 + bytes_read plus
the input length — and its usize arithmetic stays within the 64-bit range whenever
the leading continuation run is at most 8 bytes (every varint of at most 9 bytes,
in particular every well-formed frame-length varint for a value below 2^63); on a
varint with ten or more continuation bytes the shift amount reaches 64 and the
no-overflow guarantee fails (see the counterexample). -/
theorem c10_varint_safety :
    (∀ (bs : List Nat) (r k : Nat), (tryReadVarint bs r k).2 ≤ 2 + k + bs.length) ∧
    (∀ bs : List Nat,
      (bs.takeWhile (fun b => !(b &&& 127 == b))).length ≤ 8 →
      varintArithSafe bs 0 0 = true) := by
  refine ⟨fun bs r k => tryReadVarint_offset_le bs r k, ?_⟩
  intro bs h
  exact varintArithSafe_of_short bs 0 0 (by omega) (by norm_num)

/-- Witness for c10_varint_safety at a two-byte varint. -/
theorem c10_varint_safety_witness : varintArithSafe [130, 5] 0 0 = true :=
  c10_varint_safety.2 [130, 5] (by decide)

/-! ## Theorems: varint encoding round-trip (towards C4) -/

theorem encodeVarintF_irrel : ∀ f1 n f2 : Nat, n < f1 → n < f2 →
    encodeVarintF f1 n = encodeVarintF f2 n := by
  intro f1
  induction f1 with
  | zero => intro n f2 h _; omega
  | succ g1 ih =>
    intro n f2 h1 h2
    match f2 with
    | 0 => omega
    | g2 + 1 =>
      simp only [encodeVarintF]
      by_cases hn : n < 128
      · rw [if_pos hn, if_pos hn]
      · rw [if_neg hn, if_neg hn]
        congr 1
        have hd : n / 128 < n := Nat.div_lt_self (by omega) (by norm_num)
        exact ih (n / 128) g2 (by omega) (by omega)

theorem encodeVarint_lt (n : Nat) (h : n < 128) : encodeVarint n = [n] := by
  show encodeVarintF (n + 1) n = [n]
  simp [encodeVarintF, h]

theorem encodeVarint_ge (n : Nat) (h : 128 ≤ n) :
    encodeVarint n = (n % 128 + 128) :: encodeVarint (n / 128) := by
  show encodeVarintF (n + 1) n = _
  simp only [encodeVarintF]
  rw [if_neg (by omega)]
  congr 1
  have hd : n / 128 < n := Nat.div_lt_self (by omega) (by norm_num)
  exact encodeVarintF_irrel n (n / 128) (n / 128 + 1) (by omega) (by omega)

theorem encodeVarint_ne_nil (n : Nat) : encodeVarint n ≠ [] := by
  by_cases h : n < 128
  · rw [encodeVarint_lt n h]
    simp
  · rw [encodeVarint_ge n (by omega)]
    simp

theorem encodeVarint_length_pos (n : Nat) : 0 < (encodeVarint n).length :=
  List.length_pos.mpr (encodeVarint_ne_nil n)

theorem tryReadVarint_encode (n : Nat) :
    ∀ (rest : List Nat) (acc k : Nat),
      tryReadVarint (encodeVarint n ++ rest) acc k =
        (acc + n <<< (k * 7), 2 + k + ((encodeVarint n).length - 1)) := by
  induction n using Nat.strong_induction_on with
  | _ n ih =>
    intro rest acc k
    by_cases h : n < 128
    · rw [encodeVarint_lt n h, List.singleton_append]
      simp only [tryReadVarint]
      have hval : n &&& 127 = n := by
        rw [and127_eq_mod]
        exact Nat.mod_eq_of_lt h
      rw [hval, if_pos rfl]
      simp
    · have h128 : 128 ≤ n := by omega
      rw [encodeVarint_ge n h128, List.cons_append]
      simp only [tryReadVarint]
      have hmod : n % 128 < 128 := Nat.mod_lt _ (by norm_num)
      have hval : (n % 128 + 128) &&& 127 = n % 128 := by
        rw [and127_eq_mod, Nat.add_mod_right, Nat.mod_eq_of_lt hmod]
      rw [hval, if_neg (by omega)]
      have hd : n / 128 < n := Nat.div_lt_self (by omega) (by norm_num)
      rw [ih (n / 128) hd rest (acc + (n % 128) <<< (k * 7)) (k + 1)]
      have hlen : 0 < (encodeVarint (n / 128)).length := encodeVarint_length_pos _
      have hfst : acc + (n % 128) <<< (k * 7) + (n / 128) <<< ((k + 1) * 7) =
          acc + n <<< (k * 7) := by
        rw [Nat.shiftLeft_eq, Nat.shiftLeft_eq, Nat.shiftLeft_eq]
        have he : (k + 1) * 7 = k * 7 + 7 := by ring
        rw [he, pow_add]
        have hdm : n % 128 + 128 * (n / 128) = n := Nat.mod_add_div n 128
        have h27 : (2 : Nat) ^ 7 = 128 := by norm_num
        rw [h27]
        calc acc + n % 128 * 2 ^ (k * 7) + n / 128 * (2 ^ (k * 7) * 128)
            = acc + (n % 128 + 128 * (n / 128)) * 2 ^ (k * 7) := by ring
          _ = acc + n * 2 ^ (k * 7) := by rw [hdm]
      rw [hfst]
      simp only [List.length_cons, Prod.mk.injEq]
      exact ⟨trivial, by omega⟩

theorem tryReadVarint_lower (bs : List Nat) :
    ∀ acc k, 2 + k + acc ≤ (tryReadVarint bs acc k).2 + (tryReadVarint bs acc k).1 := by
  induction bs with
  | nil => intro acc k; simp [tryReadVarint]
  | cons b rest ih =>
    intro acc k
    simp only [tryReadVarint]
    by_cases hb : (b &&& 127) = b
    · rw [if_pos hb]
      simp
    · rw [if_neg hb]
      have h := ih (acc + (b &&& 127) <<< (k * 7)) (k + 1)
      generalize hs : (b &&& 127) <<< (k * 7) = s at h ⊢
      omega

theorem tryReadVarint_mono (bs : List Nat) :
    ∀ (e : List Nat) (acc k : Nat),
      (tryReadVarint bs acc k).2 + (tryReadVarint bs acc k).1 ≤
        (tryReadVarint (bs ++ e) acc k).2 + (tryReadVarint (bs ++ e) acc k).1 := by
  induction bs with
  | nil =>
    intro e acc k
    rw [List.nil_append]
    have h := tryReadVarint_lower e acc k
    show 2 + k + acc ≤ (tryReadVarint e acc k).2 + (tryReadVarint e acc k).1
    omega
  | cons b rest ih =>
    intro e acc k
    simp only [List.cons_append, tryReadVarint]
    by_cases hb : (b &&& 127) = b
    · rw [if_pos hb, if_pos hb]
    · rw [if_neg hb, if_neg hb]
      exact ih e _ _

theorem tryReadVarint_stable (bs : List Nat) :
    ∀ (e : List Nat) (acc k : Nat),
      (tryReadVarint bs acc k).2 ≤ 1 + k + bs.length →
      tryReadVarint (bs ++ e) acc k = tryReadVarint bs acc k := by
  induction bs with
  | nil =>
    intro e acc k h
    exfalso
    simp [tryReadVarint] at h
  | cons b rest ih =>
    intro e acc k h
    simp only [List.cons_append, tryReadVarint, List.length_cons] at h ⊢
    by_cases hb : (b &&& 127) = b
    · rw [if_pos hb, if_pos hb]
    · rw [if_neg hb, if_neg hb]
      rw [if_neg hb] at h
      exact ih e (acc + (b &&& 127) <<< (k * 7)) (k + 1) (by omega)

/-! ## Theorems: flat reference decoder (towards C4) -/

theorem decodeFramesF_succ_cons (fuel tag : Nat) (rest : List Nat) :
    decodeFramesF (fuel + 1) (tag :: rest) =
      (if tag = 4 then ([], FlatEnd.closed)
       else
        if (tryReadVarint rest 0 0).2 + (tryReadVarint rest 0 0).1 ≤ (tag :: rest).length then
          ((tag,
              ((tag :: rest).drop (tryReadVarint rest 0 0).2).take (tryReadVarint rest 0 0).1) ::
              (decodeFramesF fuel ((tag :: rest).drop
                ((tryReadVarint rest 0 0).2 + (tryReadVarint rest 0 0).1))).1,
            (decodeFramesF fuel ((tag :: rest).drop
              ((tryReadVarint rest 0 0).2 + (tryReadVarint rest 0 0).1))).2)
        else ([], FlatEnd.needMore (tag :: rest))) := rfl

theorem decodeFramesF_irrel : ∀ (f1 : Nat) (buf : List Nat) (f2 : Nat), buf.length < f1 →
    buf.length < f2 → decodeFramesF f1 buf = decodeFramesF f2 buf := by
  intro f1
  induction f1 with
  | zero => intro buf f2 h _; omega
  | succ g1 ih =>
    intro buf f2 h1 h2
    match f2 with
    | 0 => omega
    | g2 + 1 =>
      match buf with
      | [] => rfl
      | tag :: rest =>
        rw [decodeFramesF_succ_cons, decodeFramesF_succ_cons]
        by_cases ht : tag = 4
        · rw [if_pos ht, if_pos ht]
        · rw [if_neg ht, if_neg ht]
          by_cases hreq : (tryReadVarint rest 0 0).2 + (tryReadVarint rest 0 0).1 ≤
              (tag :: rest).length
          · rw [if_pos hreq, if_pos hreq]
            have hoff := tryReadVarint_offset_ge rest 0 0
            have hlt : ((tag :: rest).drop
                ((tryReadVarint rest 0 0).2 + (tryReadVarint rest 0 0).1)).length <
                (tag :: rest).length := by
              rw [List.length_drop]
              simp only [List.length_cons] at hreq ⊢
              omega
            simp only [List.length_cons] at h1 h2 hlt
            rw [ih _ g2 (by omega) (by omega)]
          · rw [if_neg hreq, if_neg hreq]

theorem decodeFrames_nil : decodeFrames [] = ([], .needMore []) := rfl

theorem decodeFrames_close (rest : List Nat) :
    decodeFrames (4 :: rest) = ([], .closed) := by
  show decodeFramesF ((4 :: rest).length + 1) (4 :: rest) = ([], .closed)
  simp [decodeFramesF]

theorem decodeFrames_needMore (tag : Nat) (rest : List Nat) (htag : tag ≠ 4)
    (hreq : ¬ ((tryReadVarint rest 0 0).2 + (tryReadVarint rest 0 0).1 ≤
      (tag :: rest).length)) :
    decodeFrames (tag :: rest) = ([], .needMore (tag :: rest)) := by
  show decodeFramesF ((tag :: rest).length + 1) (tag :: rest) = _
  rw [decodeFramesF_succ_cons, if_neg htag, if_neg hreq]

theorem decodeFrames_step (tag : Nat) (rest : List Nat) (htag : tag ≠ 4)
    (hreq : (tryReadVarint rest 0 0).2 + (tryReadVarint rest 0 0).1 ≤
      (tag :: rest).length) :
    decodeFrames (tag :: rest) =
      ((tag,
          ((tag :: rest).drop (tryReadVarint rest 0 0).2).take (tryReadVarint rest 0 0).1) ::
        (decodeFrames ((tag :: rest).drop
          ((tryReadVarint rest 0 0).2 + (tryReadVarint rest 0 0).1))).1,
        (decodeFrames ((tag :: rest).drop
          ((tryReadVarint rest 0 0).2 + (tryReadVarint rest 0 0).1))).2) := by
  show decodeFramesF ((tag :: rest).length + 1) (tag :: rest) = _
  rw [decodeFramesF_succ_cons, if_neg htag, if_pos hreq]
  have hoff := tryReadVarint_offset_ge rest 0 0
  have hlt : ((tag :: rest).drop
      ((tryReadVarint rest 0 0).2 + (tryReadVarint rest 0 0).1)).length <
      (tag :: rest).length := by
    rw [List.length_drop]
    simp only [List.length_cons] at hreq ⊢
    omega
  rw [decodeFramesF_irrel ((tag :: rest).length) _
    (((tag :: rest).drop ((tryReadVarint rest 0 0).2 + (tryReadVarint rest 0 0).1)).length + 1)
    (by simp only [List.length_cons] at hlt ⊢; omega) (by omega)]
  rfl

theorem decodeFrames_encode_cons (tag : Nat) (body rest : List Nat) (htag : tag ≠ 4) :
    decodeFrames (encodeFrame tag body ++ rest) =
      ((tag, body) :: (decodeFrames rest).1, (decodeFrames rest).2) := by
  have hshape : encodeFrame tag body ++ rest =
      tag :: (encodeVarint body.length ++ (body ++ rest)) := by
    simp [encodeFrame]
  rw [hshape]
  have hv := tryReadVarint_encode body.length (body ++ rest) 0 0
  have hv1 : (tryReadVarint (encodeVarint body.length ++ (body ++ rest)) 0 0).1 =
      body.length := by
    rw [hv]
    simp [Nat.shiftLeft_eq]
  have hv2 : (tryReadVarint (encodeVarint body.length ++ (body ++ rest)) 0 0).2 =
      1 + (encodeVarint body.length).length := by
    rw [hv]
    have := encodeVarint_length_pos body.length
    simp
    omega
  have hreq : (tryReadVarint (encodeVarint body.length ++ (body ++ rest)) 0 0).2 +
      (tryReadVarint (encodeVarint body.length ++ (body ++ rest)) 0 0).1 ≤
      (tag :: (encodeVarint body.length ++ (body ++ rest))).length := by
    rw [hv1, hv2]
    simp [List.length_append]
    omega
  rw [decodeFrames_step tag _ htag hreq, hv1, hv2]
  have hdrop : (tag :: (encodeVarint body.length ++ (body ++ rest))).drop
      (1 + (encodeVarint body.length).length) = body ++ rest := by
    rw [Nat.add_comm 1 _, List.drop_succ_cons, List.drop_left]
  have hdrop2 : (tag :: (encodeVarint body.length ++ (body ++ rest))).drop
      (1 + (encodeVarint body.length).length + body.length) = rest := by
    have he : 1 + (encodeVarint body.length).length + body.length =
        ((encodeVarint body.length).length + body.length) + 1 := by omega
    rw [he, List.drop_succ_cons]
    rw [show (encodeVarint body.length).length + body.length =
      (encodeVarint body.length ++ body).length by simp]
    rw [show encodeVarint body.length ++ (body ++ rest) =
      (encodeVarint body.length ++ body) ++ rest by simp]
    exact List.drop_left _ _
  rw [hdrop, hdrop2, List.take_left]

theorem decodeFrames_encodeFrames (fs : List (Nat × List Nat))
    (htags : ∀ f ∈ fs, f.1 ≠ 4) :
    decodeFrames (encodeFrames fs) = (fs, .needMore []) := by
  induction fs with
  | nil => rfl
  | cons f rest ih =>
    have hshape : encodeFrames (f :: rest) = encodeFrame f.1 f.2 ++ encodeFrames rest := by
      simp [encodeFrames]
    rw [hshape, decodeFrames_encode_cons f.1 f.2 _ (htags f (List.mem_cons_self _ _)),
      ih (fun g hg => htags g (List.mem_cons_of_mem _ hg))]

/-! ## Theorems: streaming decoder equals the flat decoder (towards C4, C5) -/

theorem msRunF_succ_cons (fuel bytesRequired tag : Nat) (rest : List Nat)
    (evs : List ReadEv) :
    msRunF (fuel + 1) bytesRequired (tag :: rest) evs =
      (if tag = 4 then ⟨[], .ended, evs⟩
       else
        if (tryReadVarint rest 0 0).2 + (tryReadVarint rest 0 0).1 ≤ (tag :: rest).length then
          ⟨(tag,
              ((tag :: rest).drop (tryReadVarint rest 0 0).2).take (tryReadVarint rest 0 0).1) ::
              (msRunF fuel 2 ((tag :: rest).drop
                ((tryReadVarint rest 0 0).2 + (tryReadVarint rest 0 0).1)) evs).frames,
            (msRunF fuel 2 ((tag :: rest).drop
              ((tryReadVarint rest 0 0).2 + (tryReadVarint rest 0 0).1)) evs).outcome,
            (msRunF fuel 2 ((tag :: rest).drop
              ((tryReadVarint rest 0 0).2 + (tryReadVarint rest 0 0).1)) evs).rest⟩
        else
          match msFill ((tryReadVarint rest 0 0).2 + (tryReadVarint rest 0 0).1)
              (tag :: rest) evs with
          | .filled buf' evs' =>
            msRunF fuel ((tryReadVarint rest 0 0).2 + (tryReadVarint rest 0 0).1) buf' evs'
          | .pend buf' =>
            ⟨[], .pendingAt ((tryReadVarint rest 0 0).2 + (tryReadVarint rest 0 0).1) buf', []⟩
          | .eofAt evs' => ⟨[], .ended, evs'⟩
          | .errAt evs' => ⟨[], .errEnd, evs'⟩) := rfl

theorem msRunF_succ_nil (fuel bytesRequired : Nat) (evs : List ReadEv) :
    msRunF (fuel + 1) bytesRequired [] evs =
      (if bytesRequired = 0 then ⟨[], .ended, evs⟩
       else
        match msFill bytesRequired [] evs with
        | .filled buf' evs' => msRunF fuel bytesRequired buf' evs'
        | .pend buf' => ⟨[], .pendingAt bytesRequired buf', []⟩
        | .eofAt evs' => ⟨[], .ended, evs'⟩
        | .errAt evs' => ⟨[], .errEnd, evs'⟩) := rfl

theorem evsData_append (a b : List ReadEv) : evsData (a ++ b) = evsData a ++ evsData b := by
  induction a with
  | nil => rfl
  | cons ev rest ih =>
    cases ev with
    | chunk c => simp [evsData, ih]
    | zeroRead => simp [evsData, ih]
    | failRead => simp [evsData, ih]

theorem evsBytes_append (a b : List ReadEv) : evsBytes (a ++ b) = evsBytes a + evsBytes b := by
  induction a with
  | nil => simp [evsBytes]
  | cons ev rest ih =>
    cases ev with
    | chunk c => simp [evsBytes, ih]; omega
    | zeroRead => simp [evsBytes, ih]; omega
    | failRead => simp [evsBytes, ih]; omega

theorem evsData_length_le (a : List ReadEv) : (evsData a).length ≤ evsBytes a := by
  induction a with
  | nil => simp [evsData, evsBytes]
  | cons ev rest ih =>
    cases ev with
    | chunk c => simp [evsData, evsBytes]; omega
    | zeroRead => simp [evsData, evsBytes]; omega
    | failRead => simp [evsData, evsBytes]; omega

theorem msFill_char (evs : List ReadEv) :
    ∀ (r : Nat) (buf : List Nat),
      (∀ ev ∈ evs, ∃ c, ev = ReadEv.chunk c ∧ c ≠ []) →
      buf.length < r →
      (msFill r buf evs = .pend (buf ++ evsData evs) ∧ (buf ++ evsData evs).length < r) ∨
      (∃ used rest, evs = used ++ rest ∧ used ≠ [] ∧
        (∀ ev ∈ rest, ∃ c, ev = ReadEv.chunk c ∧ c ≠ []) ∧
        msFill r buf evs = .filled (buf ++ evsData used) rest ∧
        r ≤ (buf ++ evsData used).length) := by
  induction evs with
  | nil =>
    intro r buf _ hlt
    left
    refine ⟨by simp [msFill, evsData], by simpa [evsData] using hlt⟩
  | cons ev rest ih =>
    intro r buf hevs hlt
    obtain ⟨c, hev, hc⟩ := hevs ev (List.mem_cons_self _ _)
    subst hev
    have hrest : ∀ e ∈ rest, ∃ c, e = ReadEv.chunk c ∧ c ≠ [] :=
      fun e he => hevs e (List.mem_cons_of_mem _ he)
    by_cases hfull : r ≤ (buf ++ c).length
    · right
      refine ⟨[ReadEv.chunk c], rest, rfl, by simp, hrest, ?_, ?_⟩
      · have hd : buf ++ evsData [ReadEv.chunk c] = buf ++ c := by simp [evsData]
        rw [hd]
        simp only [msFill]
        rw [if_pos hfull]
      · have hd : buf ++ evsData [ReadEv.chunk c] = buf ++ c := by simp [evsData]
        rw [hd]
        exact hfull
    · have hstep : msFill r buf (ReadEv.chunk c :: rest) = msFill r (buf ++ c) rest := by
        simp only [msFill]
        rw [if_neg hfull]
      rcases ih r (buf ++ c) hrest (by omega) with ⟨hpend, hlen⟩ |
        ⟨used, rest', heq, hne, hrest', hfill, hge⟩
      · left
        constructor
        · rw [hstep, hpend]
          simp [evsData]
        · simpa [evsData] using hlen
      · right
        refine ⟨ReadEv.chunk c :: used, rest', by simp [heq], by simp, hrest', ?_, ?_⟩
        · rw [hstep, hfill]
          simp [evsData]
        · simpa [evsData] using hge

theorem msRunF_frames_eq (fuel : Nat) :
    ∀ (r : Nat) (buf : List Nat) (evs : List ReadEv),
      (∀ ev ∈ evs, ∃ c, ev = ReadEv.chunk c ∧ c ≠ []) →
      (buf = [] → r = 2) →
      msMeasure buf evs < fuel →
      (msRunF fuel r buf evs).frames = (decodeFrames (buf ++ evsData evs)).1 := by
  induction fuel with
  | zero => intro r buf evs _ _ hm; omega
  | succ fuel ih =>
    intro r buf evs hevs hr hm
    match buf with
    | tag :: rest =>
      rw [msRunF_succ_cons]
      by_cases htag : tag = 4
      · subst htag
        rw [if_pos rfl,
          show (4 :: rest) ++ evsData evs = 4 :: (rest ++ evsData evs) from rfl,
          decodeFrames_close]
      · rw [if_neg htag]
        have hoff := tryReadVarint_offset_ge rest 0 0
        by_cases hreq : (tryReadVarint rest 0 0).2 + (tryReadVarint rest 0 0).1 ≤
            (tag :: rest).length
        · rw [if_pos hreq]
          have hstab : tryReadVarint (rest ++ evsData evs) 0 0 = tryReadVarint rest 0 0 := by
            apply tryReadVarint_stable
            simp only [List.length_cons] at hreq
            omega
          have hreq' : (tryReadVarint (rest ++ evsData evs) 0 0).2 +
              (tryReadVarint (rest ++ evsData evs) 0 0).1 ≤
              (tag :: (rest ++ evsData evs)).length := by
            rw [hstab]
            simp only [List.length_cons, List.length_append] at hreq ⊢
            omega
          rw [show (tag :: rest) ++ evsData evs = tag :: (rest ++ evsData evs) from rfl,
            decodeFrames_step tag _ htag hreq', hstab]
          have hdropO : (tag :: (rest ++ evsData evs)).drop (tryReadVarint rest 0 0).2 =
              ((tag :: rest).drop (tryReadVarint rest 0 0).2) ++ evsData evs := by
            rw [show (tag :: (rest ++ evsData evs)) = (tag :: rest) ++ evsData evs from rfl]
            exact List.drop_append_of_le_length (by simp only [List.length_cons] at hreq ⊢; omega)
          have htakeS : ((((tag :: rest).drop (tryReadVarint rest 0 0).2) ++
              evsData evs).take (tryReadVarint rest 0 0).1) =
              ((tag :: rest).drop (tryReadVarint rest 0 0).2).take (tryReadVarint rest 0 0).1 := by
            apply List.take_append_of_le_length
            rw [List.length_drop]
            simp only [List.length_cons] at hreq ⊢
            omega
          have hdropR : (tag :: (rest ++ evsData evs)).drop
              ((tryReadVarint rest 0 0).2 + (tryReadVarint rest 0 0).1) =
              ((tag :: rest).drop
                ((tryReadVarint rest 0 0).2 + (tryReadVarint rest 0 0).1)) ++ evsData evs := by
            rw [show (tag :: (rest ++ evsData evs)) = (tag :: rest) ++ evsData evs from rfl]
            exact List.drop_append_of_le_length hreq
          rw [hdropO, htakeS, hdropR]
          have hrec := ih 2 ((tag :: rest).drop
              ((tryReadVarint rest 0 0).2 + (tryReadVarint rest 0 0).1)) evs hevs
            (fun _ => rfl)
            (by
              simp only [msMeasure, List.length_drop, List.length_cons] at hm ⊢
              omega)
          simp only [hrec]
        · rw [if_neg hreq]
          have hlt : (tag :: rest).length <
              (tryReadVarint rest 0 0).2 + (tryReadVarint rest 0 0).1 := by omega
          rcases msFill_char evs _ (tag :: rest) hevs hlt with ⟨hpend, hlen⟩ |
            ⟨used, rest', heq, hne, hrest', hfill, hge⟩
          · rw [hpend]
            have hmono := tryReadVarint_mono rest (evsData evs) 0 0
            have hreq2 : ¬ ((tryReadVarint (rest ++ evsData evs) 0 0).2 +
                (tryReadVarint (rest ++ evsData evs) 0 0).1 ≤
                (tag :: (rest ++ evsData evs)).length) := by
              simp only [List.length_cons, List.length_append] at hlen ⊢
              omega
            rw [show (tag :: rest) ++ evsData evs = tag :: (rest ++ evsData evs) from rfl,
              decodeFrames_needMore tag _ htag hreq2]
          · rw [hfill]
            have hbufne : (tag :: rest) ++ evsData used ≠ [] := by simp
            have hused : 1 ≤ used.length := by
              cases used with
              | nil => exact absurd rfl hne
              | cons a b => simp
            have hdlen := evsData_length_le used
            have hrec := ih ((tryReadVarint rest 0 0).2 + (tryReadVarint rest 0 0).1)
              ((tag :: rest) ++ evsData used) rest' hrest'
              (fun h => absurd h hbufne)
              (by
                subst heq
                simp only [msMeasure] at hm ⊢
                rw [evsBytes_append] at hm
                simp only [List.length_append, List.length_cons] at hm ⊢
                omega)
            rw [hrec]
            subst heq
            rw [evsData_append, ← List.append_assoc]
    | [] =>
      have hr2 : r = 2 := hr rfl
      subst hr2
      rw [msRunF_succ_nil, if_neg (by norm_num)]
      rcases msFill_char evs 2 [] hevs (by simp) with ⟨hpend, hlen⟩ |
        ⟨used, rest', heq, hne, hrest', hfill, hge⟩
      · rw [hpend]
        simp only [List.nil_append] at hlen ⊢
        match hdata : evsData evs with
        | [] => rw [decodeFrames_nil]
        | [x] =>
          by_cases hx : x = 4
          · subst hx
            rw [decodeFrames_close]
          · have hcond : ¬ ((tryReadVarint ([] : List Nat) 0 0).2 +
                (tryReadVarint ([] : List Nat) 0 0).1 ≤ [x].length) := by
              simp [tryReadVarint]
            rw [decodeFrames_needMore x [] hx hcond]
        | x :: y :: tl =>
          exfalso
          rw [hdata] at hlen
          simp only [List.length_cons] at hlen
          omega
      · rw [hfill]
        have hused : 1 ≤ used.length := by
          cases used with
          | nil => exact absurd rfl hne
          | cons a b => simp
        have hdlen := evsData_length_le used
        have hrec := ih 2 ([] ++ evsData used) rest' hrest' (fun _ => rfl)
          (by
            subst heq
            simp only [msMeasure] at hm ⊢
            rw [evsBytes_append] at hm
            simp only [List.length_append, List.length_cons, List.nil_append] at hm ⊢
            omega)
        rw [hrec]
        subst heq
        rw [evsData_append]
        simp

theorem evsData_map_chunk (chunks : List (List Nat)) :
    evsData (chunks.map ReadEv.chunk) = chunks.flatten := by
  induction chunks with
  | nil => rfl
  | cons c rest ih => simp [evsData, ih]

theorem msRun_decodes (fs : List (Nat × List Nat))
    (htags : ∀ f ∈ fs, f.1 ≠ 4)
    (chunks : List (List Nat)) (hch : ∀ c ∈ chunks, c ≠ [])
    (hconcat : chunks.flatten = encodeFrames fs) :
    (msRun 2 [] (chunks.map ReadEv.chunk)).frames = fs := by
  have hevs : ∀ ev ∈ chunks.map ReadEv.chunk, ∃ c, ev = ReadEv.chunk c ∧ c ≠ [] := by
    intro ev hev
    obtain ⟨c, hcmem, rfl⟩ := List.mem_map.mp hev
    exact ⟨c, rfl, hch c hcmem⟩
  have h := msRunF_frames_eq (msMeasure [] (chunks.map ReadEv.chunk) + 1) 2 []
    (chunks.map ReadEv.chunk) hevs (fun _ => rfl) (by omega)
  rw [List.nil_append, evsData_map_chunk, hconcat,
    decodeFrames_encodeFrames fs htags] at h
  exact h

/-- C4: feeding the encoding <T><varint(len B)><B> of any single frame with a
byte-valued tag other than Close and any byte-sequence body to the streaming
decoder yields exactly the one frame with tag T and body B; and for any
concatenation of such frames, under every fragmentation of the input into
nonempty chunks (one byte at a time included) the decoder yields exactly the same
frames in the same order.  Frames here are the delimited (tag, body) units of
poll_next (push.rs 183-194); surfaceFrame describes how each one is wrapped into
Message.  The length bound records the usize domain of the Rust code; the ideal
and machine arithmetic agree on it. -/
theorem c4_roundtrip_fragmentation :
    (∀ (tag : Nat) (body : List Nat),
      tag < 256 → tag ≠ 4 → (∀ b ∈ body, b < 256) → body.length < 2 ^ 64 →
      (msRun 2 [] [ReadEv.chunk (encodeFrame tag body)]).frames = [(tag, body)]) ∧
    (∀ fs : List (Nat × List Nat),
      (∀ f ∈ fs, f.1 < 256 ∧ f.1 ≠ 4 ∧ (∀ b ∈ f.2, b < 256) ∧ f.2.length < 2 ^ 64) →
      ∀ chunks : List (List Nat), (∀ c ∈ chunks, c ≠ []) →
        chunks.flatten = encodeFrames fs →
        (msRun 2 [] (chunks.map ReadEv.chunk)).frames = fs) := by
  constructor
  · intro tag body _ h2 _ _
    exact msRun_decodes [(tag, body)] (by simpa using h2) [encodeFrame tag body]
      (by simp [encodeFrame]) (by simp [encodeFrames])
  · intro fs hfs chunks hch hconcat
    exact msRun_decodes fs (fun f hf => (hfs f hf).2.1) chunks hch hconcat

/-- Witness for c4_roundtrip_fragmentation: two frames delivered one byte at a
time. -/
theorem c4_roundtrip_fragmentation_witness :
    (msRun 2 [] ([[8], [1], [15], [5], [0]].map ReadEv.chunk)).frames =
      [(8, [15]), (5, [])] :=
  c4_roundtrip_fragmentation.2 [(8, [15]), (5, [])] (by decide)
    [[8], [1], [15], [5], [0]] (by decide) (by decide)

/-! ## Theorems: C5 — stream termination -/

/-- C5 (amended): the decoder ends the stream exactly at a Close tag, a zero-byte
read, or a read error: a Close tag at the head of the buffer ends the stream at
once, discarding the buffered bytes and consuming no further read event; from the
terminal state (bytes_required 0, empty buffer) every further poll returns
end-of-stream without touching the reader; a zero-byte read ends the stream
silently; a read failure ends it with the socket error.  A DataMessage protobuf
decode failure, by contrast, is surfaced as an error item while the framing state
advances exactly as on success, so the stream continues — the decode-error clause
of the claim does not hold (see the counterexample). -/
theorem c5_terminal_behavior :
    (∀ (r : Nat) (buf : List Nat) (evs : List ReadEv),
      msRun r (4 :: buf) evs = ⟨[], .ended, evs⟩) ∧
    (∀ evs : List ReadEv, msRun 0 [] evs = ⟨[], .ended, evs⟩) ∧
    (∀ (r : Nat) (evs : List ReadEv), r ≠ 0 →
      msRun r [] (ReadEv.zeroRead :: evs) = ⟨[], .ended, evs⟩) ∧
    (∀ (r : Nat) (evs : List ReadEv), r ≠ 0 →
      msRun r [] (ReadEv.failRead :: evs) = ⟨[], .errEnd, evs⟩) := by
  refine ⟨?_, ?_, ?_, ?_⟩
  · intro r buf evs
    show msRunF (msMeasure (4 :: buf) evs + 1) r (4 :: buf) evs = _
    rw [msRunF_succ_cons, if_pos rfl]
  · intro evs
    show msRunF (msMeasure [] evs + 1) 0 [] evs = _
    rw [msRunF_succ_nil, if_pos rfl]
  · intro r evs hrne
    show msRunF (msMeasure [] (ReadEv.zeroRead :: evs) + 1) r [] (ReadEv.zeroRead :: evs) = _
    rw [msRunF_succ_nil, if_neg hrne]
    rfl
  · intro r evs hrne
    show msRunF (msMeasure [] (ReadEv.failRead :: evs) + 1) r [] (ReadEv.failRead :: evs) = _
    rw [msRunF_succ_nil, if_neg hrne]
    rfl

/-- Witness for c5_terminal_behavior: a zero-byte read on a fresh stream ends it. -/
theorem c5_terminal_behavior_witness :
    msRun 2 [] [ReadEv.zeroRead] = ⟨[], .ended, []⟩ :=
  c5_terminal_behavior.2.2.1 2 [] (by decide)

/-- C5 counterexample: feeding the single chunk <8><len 1><0x0F><5><len 1><99> —
a DataMessageStanza frame whose body every protobuf decoder rejects (its first
field key has wire type 7), followed by a tag-5 frame — the decoder surfaces the
ProtobufDecode error for the first frame and then keeps going: it delivers the
second frame, and the stream is still alive (pending) rather than terminated, so
a decode error does not end the decoded stream as the claim says. -/
theorem c5_decode_error_not_terminal :
    (msRun 2 [] [ReadEv.chunk [8, 1, 15, 5, 1, 99]]).frames = [(8, [15]), (5, [99])] ∧
    ((msRun 2 [] [ReadEv.chunk [8, 1, 15, 5, 1, 99]]).frames.map
      (fun f => surfaceFrame f.1 f.2)) = [.protoDecodeErr [15], .other 5 [99]] ∧
    (msRun 2 [] [ReadEv.chunk [8, 1, 15, 5, 1, 99]]).outcome = .pendingAt 2 [] := by
  refine ⟨by decide, by decide, by decide⟩
